import Mathlib

/-!
# seata-log-collection: the log uploader of `main.go`

A shallow embedding of `main.go` and of the parts of the Go standard library it
calls (`strings.SplitN`, `strings.Trim`, `encoding/json` for a struct of four
strings, `unicode/utf8`), followed by the properties of the parser, the
uploader, the file processor and the directory walker.

Go strings are byte sequences; the network, the file system and the scheduler
are explicit inputs of the model.
-/

namespace SeataLog

/-! ## Strings -/

/-- A Go `byte`. -/
abbrev Byte := Fin 256

/-- A Go `string`: an immutable sequence of bytes, not necessarily valid UTF-8. -/
abbrev GoString := List Byte

/-- The rune `utf8.RuneError`, U+FFFD. -/
def RuneError : Nat := 0xFFFD

/-- The function `utf8.AppendRune`: the UTF-8 encoding of rune `r`.  Shifts are
written as divisions, masks as remainders and `|` of disjoint bit fields as `+`. -/
def AppendRune (r : Nat) : GoString :=
  if r ≤ 0x7F then [Fin.ofNat r]
  else if r ≤ 0x7FF then [Fin.ofNat (0xC0 + r / 64), Fin.ofNat (0x80 + r % 64)]
  else if r > 0x10FFFF ∨ (0xD800 ≤ r ∧ r ≤ 0xDFFF) then [0xEF, 0xBF, 0xBD]
  else if r ≤ 0xFFFF then
    [Fin.ofNat (0xE0 + r / 4096), Fin.ofNat (0x80 + r / 64 % 64), Fin.ofNat (0x80 + r % 64)]
  else
    [Fin.ofNat (0xF0 + r / 262144), Fin.ofNat (0x80 + r / 4096 % 64),
     Fin.ofNat (0x80 + r / 64 % 64), Fin.ofNat (0x80 + r % 64)]

/-- The bytes of a Go string literal: the UTF-8 encoding of its characters. -/
def str (s : String) : GoString := s.toList.flatMap fun c => AppendRune c.toNat

/-- The function `strings.HasPrefix`. -/
def HasPrefix : GoString → GoString → Bool
  | _, [] => true
  | [], _ :: _ => false
  | a :: s, b :: p => a == b && HasPrefix s p

/-- The function `strings.Index`: the offset of the first occurrence of `sep` in
`s`; `none` stands for the `-1` Go returns when there is none. -/
def Index : GoString → GoString → Option Nat
  | [], sep => if HasPrefix [] sep then some 0 else none
  | b :: s, sep =>
    if HasPrefix (b :: s) sep then some 0 else (Index s sep).map (· + 1)

/-- The loop of `strings.genSplit` with `sepSave = 0`; the counter is the number
of cuts still allowed (`n - 1 - i` in the Go code). -/
def splitLoop (sep : GoString) : Nat → GoString → List GoString
  | 0, s => [s]
  | k + 1, s =>
    match Index s sep with
    | none => [s]
    | some m => s.take m :: splitLoop sep k (s.drop (m + sep.length))

/-- The function `strings.SplitN` for a non-empty separator and `n ≥ 0` (both
call sites pass a constant separator and `n = 2`). -/
def SplitN (s sep : GoString) (n : Nat) : List GoString :=
  if n = 0 then []
  else splitLoop sep (min n (s.length + 1) - 1) s

/-- The function `trimLeftASCII`: drop the leading bytes that belong to the cutset. -/
def trimLeftASCII : GoString → GoString → GoString
  | [], _ => []
  | b :: s, cutset => if b ∈ cutset then trimLeftASCII s cutset else b :: s

/-- The function `trimRightASCII`: drop the trailing bytes that belong to the cutset. -/
def trimRightASCII (s cutset : GoString) : GoString :=
  (trimLeftASCII s.reverse cutset).reverse

/-- The function `strings.Trim` for an ASCII cutset. -/
def Trim (s cutset : GoString) : GoString :=
  if s = [] ∨ cutset = [] then s
  else trimLeftASCII (trimRightASCII s cutset) cutset

deriving instance DecidableEq for Except

/-! ## The record and the line parser -/

/-- The struct `LogData`. -/
structure LogData where
  ApplicationID : GoString
  LogLevel : GoString
  Timestamp : GoString
  LogMessage : GoString
  deriving DecidableEq, Repr

/-- The parsing step of `processLogFile`: the loop body from the first `SplitN`
to the construction of `logData`; `none` is the `continue` of an invalid line. -/
def parseLine (appID line : GoString) : Option LogData :=
  let parts := SplitN line (str ": ") 2
  if parts.length ≠ 2 then none
  else
    let metaParts := SplitN (parts.getD 0 []) (str "] [") 2
    if metaParts.length ≠ 2 then none
    else
      let timestamp := Trim (metaParts.getD 0 []) (str "[]")
      let logLevel := Trim (metaParts.getD 1 []) (str "[]")
      let logMessage := parts.getD 1 []
      some { ApplicationID := appID, LogLevel := logLevel,
             Timestamp := timestamp, LogMessage := logMessage }

/-! ## `unicode/utf8` and `encoding/json` -/

/-- The table `utf8.first`, given by the byte ranges of its rows. -/
def first (b : Byte) : Nat :=
  if b.val < 0x80 then 0xF0
  else if b.val < 0xC2 then 0xF1
  else if b.val < 0xE0 then 0x02
  else if b.val = 0xE0 then 0x13
  else if b.val < 0xED then 0x03
  else if b.val = 0xED then 0x23
  else if b.val < 0xF0 then 0x03
  else if b.val = 0xF0 then 0x34
  else if b.val < 0xF4 then 0x04
  else if b.val = 0xF4 then 0x44
  else 0xF1

/-- The table `utf8.acceptRanges`: the bounds of the second byte. -/
def acceptRanges : Nat → Nat × Nat
  | 0 => (0x80, 0xBF)
  | 1 => (0xA0, 0xBF)
  | 2 => (0x80, 0x9F)
  | 3 => (0x90, 0xBF)
  | 4 => (0x80, 0x8F)
  | _ => (0, 0)

/-- The function `utf8.DecodeRuneInString`: the first rune of `s` and its width
in bytes; an invalid encoding gives `(RuneError, 1)`. -/
def DecodeRuneInString (s : GoString) : Nat × Nat :=
  match s with
  | [] => (RuneError, 0)
  | s0 :: _ =>
    let x := first s0
    if x ≥ 0xF0 then
      (if x % 2 = 1 then RuneError else s0.val, 1)
    else
      let sz := x % 8
      let accept := acceptRanges (x / 16)
      if s.length < sz then (RuneError, 1)
      else
        let s1 := (s.getD 1 0).val
        if s1 < accept.1 ∨ accept.2 < s1 then (RuneError, 1)
        else if sz ≤ 2 then (s0.val % 32 * 64 + s1 % 64, 2)
        else
          let s2 := (s.getD 2 0).val
          if s2 < 0x80 ∨ 0xBF < s2 then (RuneError, 1)
          else if sz ≤ 3 then (s0.val % 16 * 4096 + s1 % 64 * 64 + s2 % 64, 3)
          else
            let s3 := (s.getD 3 0).val
            if s3 < 0x80 ∨ 0xBF < s3 then (RuneError, 1)
            else (s0.val % 8 * 262144 + s1 % 64 * 4096 + s2 % 64 * 64 + s3 % 64, 4)

/-- The loop of `utf8.ValidString`, bounded by the length of the string. -/
def validLoop : Nat → GoString → Bool
  | 0, s => s.isEmpty
  | fuel + 1, s =>
    match s with
    | [] => true
    | _ :: _ =>
      let (c, size) := DecodeRuneInString s
      if c = RuneError ∧ size = 1 then false else validLoop fuel (s.drop size)

/-- The function `utf8.ValidString`. -/
def ValidString (s : GoString) : Bool := validLoop s.length s

/-- The loop of `coerceToValidUTF8`, bounded by the length of the string. -/
def coerceLoop : Nat → GoString → GoString
  | 0, _ => []
  | fuel + 1, s =>
    match s with
    | [] => []
    | _ :: rest =>
      let (c, size) := DecodeRuneInString s
      if c = RuneError ∧ size = 1 then AppendRune RuneError ++ coerceLoop fuel rest
      else s.take size ++ coerceLoop fuel (s.drop size)

/-- The string `s` coerced to valid UTF-8 in the way the documentation of
`json.Marshal` describes: each byte that does not start a valid encoding is
replaced by the encoding of the replacement rune U+FFFD. -/
def coerceToValidUTF8 (s : GoString) : GoString := coerceLoop s.length s

/-- The constant `hex` of `encoding/json`. -/
def hex : GoString := str "0123456789abcdef"

/-- The table `htmlSafeSet` of `encoding/json` on ASCII bytes. -/
def htmlSafeSet (b : Byte) : Bool :=
  0x20 ≤ b.val && b.val < 0x80 && b ∉ str "\"&<>\\"

/-- What `appendString` of `encoding/json` emits (with `escapeHTML` set) for an
ASCII byte outside `htmlSafeSet`, as of Go 1.22, which writes `\b` and `\f` in
their short form. -/
def escapeByte (b : Byte) : GoString :=
  if b = 0x5C ∨ b = 0x22 then [0x5C, b]
  else if b = 0x08 then str "\\b"
  else if b = 0x0C then str "\\f"
  else if b = 0x0A then str "\\n"
  else if b = 0x0D then str "\\r"
  else if b = 0x09 then str "\\t"
  else str "\\u00" ++ [hex.getD (b.val / 16) 0, hex.getD (b.val % 16) 0]

/-- The loop of `appendString` of `encoding/json` with `escapeHTML` set, bounded
by the length of the source.  The pending bytes `src[start:i]`, which the Go
code copies lazily, are emitted as soon as they are scanned. -/
def appendStringLoop : Nat → GoString → GoString
  | 0, _ => []
  | fuel + 1, src =>
    match src with
    | [] => []
    | b :: rest =>
      if b.val < 0x80 then
        if htmlSafeSet b then b :: appendStringLoop fuel rest
        else escapeByte b ++ appendStringLoop fuel rest
      else
        let (c, size) := DecodeRuneInString (src.take 4)
        if c = RuneError ∧ size = 1 then
          str "\\ufffd" ++ appendStringLoop fuel rest
        else if c = 0x2028 ∨ c = 0x2029 then
          str "\\u202" ++ [hex.getD (c % 16) 0] ++ appendStringLoop fuel (src.drop size)
        else
          src.take size ++ appendStringLoop fuel (src.drop size)

/-- The function `appendString` of `encoding/json`: the quoted JSON string for `src`. -/
def appendString (src : GoString) : GoString :=
  str "\"" ++ appendStringLoop src.length src ++ str "\""

/-- The call `json.Marshal(logData)`: the struct encoder writes the four fields
in declaration order under their `json` tags.  It has no failing path for a
struct of strings. -/
def jsonMarshal (d : LogData) : Except GoString GoString :=
  .ok (str "\x7b\"application_id\":" ++ appendString d.ApplicationID
    ++ str ",\"log_level\":" ++ appendString d.LogLevel
    ++ str ",\"timestamp\":" ++ appendString d.Timestamp
    ++ str ",\"log_message\":" ++ appendString d.LogMessage ++ str "\x7d")

/-! ## A JSON reader for the uploaded body -/

/-- The value of one hexadecimal digit. -/
def hexVal (b : Byte) : Option Nat :=
  if 0x30 ≤ b.val ∧ b.val ≤ 0x39 then some (b.val - 0x30)
  else if 0x61 ≤ b.val ∧ b.val ≤ 0x66 then some (b.val - 0x61 + 10)
  else if 0x41 ≤ b.val ∧ b.val ≤ 0x46 then some (b.val - 0x41 + 10)
  else none

/-- The code unit written by the four hexadecimal digits of a `\u` escape. -/
def getu4 (a b c d : Byte) : Option Nat :=
  match hexVal a, hexVal b, hexVal c, hexVal d with
  | some x, some y, some z, some w => some (x * 4096 + y * 256 + z * 16 + w)
  | _, _, _, _ => none

/-- The character of a one-letter escape. -/
def unescape (e : Byte) : Option Byte :=
  if e = 0x22 ∨ e = 0x5C ∨ e = 0x2F then some e
  else if e = 0x62 then some 0x08
  else if e = 0x66 then some 0x0C
  else if e = 0x6E then some 0x0A
  else if e = 0x72 then some 0x0D
  else if e = 0x74 then some 0x09
  else none

/-- The bytes owed for a pending high surrogate that found no partner: the
replacement rune. -/
def flush : Option Nat → GoString
  | none => []
  | some _ => AppendRune RuneError

/-- Reads the inside of a JSON string up to its closing quote: the decoded
bytes and the input left after the quote.  The first argument is a high
surrogate read by the preceding `\u` escape and still waiting for its partner. -/
def unquoteLoop (pending : Option Nat) : GoString → Option (GoString × GoString)
  | [] => none
  | b :: rest =>
    if b = 0x22 then some (flush pending, rest)
    else if b = 0x5C then
      match rest with
      | [] => none
      | e :: rest1 =>
        if e = 0x75 then
          match rest1 with
          | h1 :: h2 :: h3 :: h4 :: rest2 =>
            match getu4 h1 h2 h3 h4 with
            | none => none
            | some rr =>
              match pending with
              | some hi =>
                if 0xDC00 ≤ rr ∧ rr < 0xE000 then
                  (unquoteLoop none rest2).map fun p =>
                    (AppendRune ((hi - 0xD800) * 1024 + (rr - 0xDC00) + 0x10000) ++ p.1, p.2)
                else if 0xD800 ≤ rr ∧ rr < 0xDC00 then
                  (unquoteLoop (some rr) rest2).map fun p => (AppendRune RuneError ++ p.1, p.2)
                else
                  (unquoteLoop none rest2).map fun p =>
                    (AppendRune RuneError ++ AppendRune rr ++ p.1, p.2)
              | none =>
                if 0xD800 ≤ rr ∧ rr < 0xDC00 then unquoteLoop (some rr) rest2
                else (unquoteLoop none rest2).map fun p => (AppendRune rr ++ p.1, p.2)
          | _ => none
        else
          match unescape e with
          | none => none
          | some c => (unquoteLoop none rest1).map fun p => (flush pending ++ c :: p.1, p.2)
    else if b.val < 0x20 then none
    else (unquoteLoop none rest).map fun p => (flush pending ++ b :: p.1, p.2)

/-- Reads one JSON string literal at the head of the input. -/
def unquote : GoString → Option (GoString × GoString)
  | [] => none
  | b :: rest => if b = 0x22 then unquoteLoop none rest else none

/-- Consumes the literal `lit` at the head of the input. -/
def expect (lit s : GoString) : Option GoString :=
  if HasPrefix s lit then some (s.drop lit.length) else none

/-- Reads one member `"key":"value"` whose key must be `key`. -/
def decodeMember (key s : GoString) : Option (GoString × GoString) := do
  let (k, s) ← unquote s
  if k ≠ key then none
  let s ← expect (str ":") s
  unquote s

/-- Reads back a body of the shape of section 6 of the specification: an object
whose members are the four keys, in order, each with a string value. -/
def decodeBody (body : GoString) : Option LogData := do
  let s ← expect (str "\x7b") body
  let (appID, s) ← decodeMember (str "application_id") s
  let s ← expect (str ",") s
  let (level, s) ← decodeMember (str "log_level") s
  let s ← expect (str ",") s
  let (ts, s) ← decodeMember (str "timestamp") s
  let s ← expect (str ",") s
  let (msg, s) ← decodeMember (str "log_message") s
  let s ← expect (str "\x7d") s
  if s ≠ [] then none
  pure { ApplicationID := appID, LogLevel := level, Timestamp := ts, LogMessage := msg }

/-! ## The uploader -/

/-- What `http.Post` gave: an error, or a response with its status code and the
bytes `ioutil.ReadAll` read from its body. -/
inductive PostResult where
  | failed (err : GoString)
  | response (StatusCode : Nat) (body : GoString)
  deriving DecidableEq, Repr

/-- The remote side as this process sees it: from its current state, the target
URL, the content type and the request body, the result of the POST and its next
state. -/
abbrev Endpoint (σ : Type) := σ → GoString → GoString → GoString → PostResult × σ

/-- The function `uploadLog`: the returned error (`none` is `nil`) and the state
of the remote side afterwards.  An error is represented by its text. -/
def uploadLog {σ : Type} (post : Endpoint σ) (net : σ) (logData : LogData)
    (uploadURL : GoString) : Option GoString × σ :=
  match jsonMarshal logData with
  | .error err => (some (str "failed to marshal log data: " ++ err), net)
  | .ok jsonData =>
    match post net uploadURL (str "application/json") jsonData with
    | (.failed err, net1) => (some (str "failed to upload log: " ++ err), net1)
    | (.response statusCode body, net1) =>
      if statusCode ≠ 200 then (some (str "failed to upload log: " ++ body), net1)
      else (none, net1)

/-! ## The file processor -/

/-- What `os.Open` and the `bufio.Scanner` give for a path: the open error, or
the lines `scanner.Scan` delivers followed by the value of `scanner.Err()`. -/
inductive OpenResult where
  | failed (err : GoString)
  | opened (lines : List GoString) (scanErr : Option GoString)
  deriving DecidableEq, Repr

/-- The constant `bufio.MaxScanTokenSize`, the buffer limit of a `Scanner` made by
`bufio.NewScanner`. -/
def MaxScanTokenSize : Nat := 64 * 1024

/-- The text of `bufio.ErrTooLong`. -/
def ErrTooLong : GoString := str "bufio.Scanner: token too long"

/-- The function `dropCR` of `bufio`: drop one trailing carriage return. -/
def dropCR (data : GoString) : GoString :=
  if data.getLast? = some 0x0D then data.dropLast else data

/-- The loop of `Scanner.Scan` with the split function `bufio.ScanLines`, over the
bytes the reads return before they end with `io.EOF` (`readErr = none`) or with
the error `readErr`; `cur` is the unfinished line held in the buffer.  A newline
ends a token; a buffer of `MaxScanTokenSize` bytes without a newline ends the scan
with `ErrTooLong`; when the reads have ended, what the buffer holds is the last
token.  The result is the tokens delivered and the value of `scanner.Err()`. -/
def scanLoop (readErr : Option GoString) : GoString → GoString → List GoString × Option GoString
  | [], cur => if cur = [] then ([], readErr) else ([dropCR cur], readErr)
  | b :: rest, cur =>
    if b = 0x0A then (dropCR cur :: (scanLoop readErr rest []).1, (scanLoop readErr rest []).2)
    else if MaxScanTokenSize ≤ cur.length + 1 then ([], some ErrTooLong)
    else scanLoop readErr rest (cur ++ [b])

/-- What `processLogFile` gets from a file that `os.Open` opened: `data` are the
bytes its reads return, `readErr` the error that ends them if it is not `io.EOF`. -/
def scanFile (data : GoString) (readErr : Option GoString) : OpenResult :=
  .opened (scanLoop readErr data []).1 (scanLoop readErr data []).2

/-- The observable effects of one `processLogFile` call. -/
structure Run (σ : Type) where
  /-- The messages passed to `log.Printf`, in order. -/
  logs : List GoString
  /-- The records passed to `uploadLog`, in order. -/
  uploads : List LogData
  /-- The number of `wg.Done()` calls. -/
  done : Nat
  /-- The state of the remote side. -/
  net : σ

/-- One iteration of the scan loop of `processLogFile`. -/
def scanStep {σ : Type} (post : Endpoint σ) (filePath appID uploadURL : GoString)
    (r : Run σ) (line : GoString) : Run σ :=
  match parseLine appID line with
  | none =>
    { r with logs := r.logs ++ [str "invalid log format in file " ++ filePath ++ str ": " ++ line] }
  | some logData =>
    match uploadLog post r.net logData uploadURL with
    | (some err, net1) =>
      { r with logs := r.logs ++ [str "failed to upload log from file " ++ filePath ++ str ": " ++ err],
               uploads := r.uploads ++ [logData], net := net1 }
    | (none, net1) =>
      { r with logs := r.logs ++ [str "successfully uploaded log from file " ++ filePath ++ str ": "
                 ++ logData.LogMessage],
               uploads := r.uploads ++ [logData], net := net1 }

/-- The function `processLogFile`.  The deferred `wg.Done()` runs when the body
returns, whichever `return` it took. -/
def processLogFile {σ : Type} (post : Endpoint σ) (filePath appID uploadURL : GoString)
    (file : OpenResult) (net : σ) : Run σ :=
  let r : Run σ :=
    match file with
    | .failed err =>
      { logs := [str "failed to open file " ++ filePath ++ str ": " ++ err],
        uploads := [], done := 0, net := net }
    | .opened lines scanErr =>
      let r := lines.foldl (scanStep post filePath appID uploadURL)
        { logs := [], uploads := [], done := 0, net := net }
      match scanErr with
      | some err => { r with logs := r.logs ++ [str "error reading file " ++ filePath ++ str ": " ++ err] }
      | none => r
  { r with done := r.done + 1 }

/-! ## The directory walker -/

/-- The type of a directory entry, from the type bits of its `FileMode`. -/
inductive FileKind where
  | regular | dir | symlink | namedPipe | socket | device | irregular
  deriving DecidableEq, Repr

/-- An `os.FileInfo` of the listing. -/
structure FileInfo where
  Name : GoString
  Kind : FileKind
  deriving DecidableEq, Repr

/-- The method `IsDir`. -/
def FileInfo.IsDir (f : FileInfo) : Bool := f.Kind = .dir

/-- The method `Mode().IsRegular`. -/
def FileInfo.IsRegular (f : FileInfo) : Bool := f.Kind = .regular

/-- What the process runs against: the remote side, the file system and
`filepath.Join`. -/
structure Env (σ : Type) where
  post : Endpoint σ
  openFile : GoString → OpenResult
  Join : GoString → GoString → GoString

/-- Where the goroutine running `uploadLogsFromDir` stands. -/
inductive PC where
  /-- In the `range` loop, with the entries not yet visited. -/
  | loop (pending : List FileInfo)
  /-- After `wg.Add(1)` for entry `f`, before its `go` statement. -/
  | added (f : FileInfo) (pending : List FileInfo)
  /-- In `wg.Wait()`. -/
  | waiting
  /-- After `wg.Wait()` returned. -/
  | returned
  /-- After `log.Fatalf`: the process has exited. -/
  | fatal
  deriving DecidableEq, Repr

/-- The state of the process during `uploadLogsFromDir`. -/
structure Sys (σ : Type) where
  pc : PC
  /-- The counter of the `sync.WaitGroup`. -/
  counter : Int
  /-- The paths of the `processLogFile` goroutines started so far, in order. -/
  started : List GoString
  /-- The started goroutines that have not returned yet. -/
  running : List GoString
  /-- The goroutines that have returned, in order of completion. -/
  finished : List GoString
  logs : List GoString
  net : σ
  deriving DecidableEq, Repr

/-- A scheduling decision: let the main goroutine execute its next statement, or
let the `i`-th running `processLogFile` run to its return. -/
inductive Action where
  | main
  | finish (i : Nat)
  deriving DecidableEq, Repr

/-- The state in which `uploadLogsFromDir` leaves `ioutil.ReadDir`. -/
def uploadLogsFromDir.init {σ : Type} (dirPath : GoString) (listing : Except GoString (List FileInfo))
    (net : σ) : Sys σ :=
  match listing with
  | .error err =>
    { pc := .fatal, counter := 0, started := [], running := [], finished := [],
      logs := [str "failed to read directory " ++ dirPath ++ str ": " ++ err], net := net }
  | .ok files =>
    { pc := .loop files, counter := 0, started := [], running := [], finished := [],
      logs := [], net := net }

/-- One scheduling step of `uploadLogsFromDir` and the goroutines it started;
`none` when the chosen goroutine cannot move (it is blocked in `wg.Wait()`, has
exited, or does not exist).  A `processLogFile` goroutine touches the wait group
only through its deferred `wg.Done()`, so its body is run in one step. -/
def uploadLogsFromDir.step {σ : Type} (env : Env σ) (dirPath appID uploadURL : GoString)
    (s : Sys σ) : Action → Option (Sys σ)
  | .main =>
    match s.pc with
    | .loop [] => some { s with pc := .waiting }
    | .loop (file :: rest) =>
      if !file.IsDir then some { s with pc := .added file rest, counter := s.counter + 1 }
      else some { s with pc := .loop rest }
    | .added file rest =>
      let filePath := env.Join dirPath file.Name
      some { s with pc := .loop rest, started := s.started ++ [filePath],
                    running := s.running ++ [filePath] }
    | .waiting => if s.counter = 0 then some { s with pc := .returned } else none
    | .returned => none
    | .fatal => none
  | .finish i =>
    match s.pc, s.running[i]? with
    | .fatal, _ => none
    | _, none => none
    | _, some filePath =>
      let r := processLogFile env.post filePath appID uploadURL (env.openFile filePath) s.net
      some { s with counter := s.counter - r.done, running := s.running.eraseIdx i,
                    finished := s.finished ++ [filePath], logs := s.logs ++ r.logs,
                    net := r.net }

/-- Runs a schedule. -/
def uploadLogsFromDir.run {σ : Type} (env : Env σ) (dirPath appID uploadURL : GoString) :
    Sys σ → List Action → Option (Sys σ)
  | s, [] => some s
  | s, a :: rest =>
    match uploadLogsFromDir.step env dirPath appID uploadURL s a with
    | none => none
    | some s1 => uploadLogsFromDir.run env dirPath appID uploadURL s1 rest

/-! ## Vocabulary of the statements -/

/-- One path per entry of the listing that is not a directory, in listing order:
the directory path joined with the name of the entry. -/
def launchPaths (Join : GoString → GoString → GoString) (dirPath : GoString)
    (files : List FileInfo) : List GoString :=
  (files.filter fun f => !f.IsDir).map fun f => Join dirPath f.Name

/-- The entries the `range` loop still has to deal with. -/
def pendingOf : PC → List FileInfo
  | .loop pending => pending
  | .added f pending => f :: pending
  | _ => []

/-- The invariant of `uploadLogsFromDir` over a listing `files`: the goroutines
started are those of the entries visited; the counter of the wait group is the
number of goroutines still running, plus one between `wg.Add(1)` and the `go`
statement; every started goroutine is running or finished; and `wg.Wait()` has
returned only if none is running. -/
def Sys.Inv {σ : Type} (Join : GoString → GoString → GoString) (dirPath : GoString)
    (files : List FileInfo) (s : Sys σ) : Prop :=
  s.pc ≠ .fatal ∧
  (∃ visited, files = visited ++ pendingOf s.pc ∧ s.started = launchPaths Join dirPath visited) ∧
  s.counter = (s.running.length : Int) + (match s.pc with | .added _ _ => 1 | _ => 0) ∧
  (∀ f rest, s.pc = .added f rest → f.IsDir = false) ∧
  s.started.Perm (s.finished ++ s.running) ∧
  (s.pc = .returned → s.running = [])

/-- A world for the examples: every file is empty, nothing is ever posted, and
paths are joined with a slash. -/
def quietEnv : Env Unit where
  post := fun _ _ _ _ => (.response 200 [], ())
  openFile := fun _ => .opened [] none
  Join := fun dir name => dir ++ str "/" ++ name

/-- A listing for the examples: two regular files around a subdirectory. -/
def sampleDir : List FileInfo :=
  [⟨str "a.log", .regular⟩, ⟨str "sub", .dir⟩, ⟨str "b.log", .regular⟩]

/-- A schedule for the examples: the main goroutine runs up to `wg.Wait()`, the
second goroutine started finishes, then the first, then `wg.Wait()` returns. -/
def sampleSchedule : List Action :=
  [.main, .main, .main, .main, .main, .main, .finish 1, .finish 0, .main]

/-- The string `pre` is the text of `s` before the first occurrence of `sep`, and
`post` the text after that occurrence: `sep` starts at offset `pre.length` and at
no smaller offset. -/
def FirstCut (sep s pre post : GoString) : Prop :=
  s = pre ++ sep ++ post ∧ ∀ p, p < pre.length → ¬ sep <+: s.drop p

/-- The string `s` neither begins nor ends with `[` or `]`. -/
def NoBracketAtEnds (s : GoString) : Prop :=
  ¬ str "[" <+: s ∧ ¬ str "]" <+: s ∧ ¬ str "[" <:+ s ∧ ¬ str "]" <:+ s

instance (s : GoString) : Decidable (NoBracketAtEnds s) := by
  unfold NoBracketAtEnds; infer_instance

/-- The string `out` is `seg` without its longest prefix and its longest suffix
made of bytes of `cutset`: what is removed lies in `cutset`, and what is left
neither begins nor ends with a byte of `cutset`. -/
def Stripped (cutset seg out : GoString) : Prop :=
  ∃ l r, seg = l ++ out ++ r ∧ (∀ b ∈ l, b ∈ cutset) ∧ (∀ b ∈ r, b ∈ cutset) ∧
    (∀ b, out.head? = some b → b ∉ cutset) ∧ (∀ b, out.getLast? = some b → b ∉ cutset)

/-- The stripping as section 4.1, step 3 of the specification words it: the
leading `[` bytes and the trailing `]` bytes of the segment are removed. -/
def stripLeadingOpenTrailingClose (seg : GoString) : GoString :=
  ((seg.dropWhile fun b => b = 0x5B).reverse.dropWhile fun b => b = 0x5D).reverse

/-- An endpoint for the examples: it counts the requests, answers the first with
status 500 and body `internal error`, and every later one with status 200. -/
def failFirst : Endpoint Nat := fun n _ _ _ =>
  (if n = 0 then .response 500 (str "internal error") else .response 200 (str "ok"), n + 1)

/-- The calls of `http.Post` observed: the state of `post` is paired with the
bodies passed to it so far, in order. -/
def recording {σ : Type} (post : Endpoint σ) : Endpoint (σ × List GoString) :=
  fun s uploadURL contentType body =>
    ((post s.1 uploadURL contentType body).1, ((post s.1 uploadURL contentType body).2, s.2 ++ [body]))

/-- A file for the examples: a malformed line followed by two well-formed ones. -/
def sampleLines : List GoString :=
  [str "this is not a log line", str "[t1] [ERROR]: boom", str "[t2] [INFO]: server started"]

/-- The lines of a file content, `cur` being the line begun: a line is the text up
to a newline, without the newline and without a carriage return before it; bytes
after the last newline form a last line. -/
def linesLoop : GoString → GoString → List GoString
  | [], cur => if cur = [] then [] else [dropCR cur]
  | b :: rest, cur =>
    if b = 0x0A then dropCR cur :: linesLoop rest [] else linesLoop rest (cur ++ [b])

/-- The lines of a file content. -/
def fileLines (content : GoString) : List GoString := linesLoop content []

/-- A file for the examples: a first line of 65536 letters `a`, then the line
`[t] [INFO]: m`. -/
def longLineFile : GoString := List.replicate 65536 0x61 ++ str "\n[t] [INFO]: m\n"

/-- A file for the examples: the three lines of `sampleLines`, the last one without
a final newline. -/
def sampleFile : GoString :=
  str "this is not a log line\n[t1] [ERROR]: boom\r\n[t2] [INFO]: server started"

/-! ## Strings: lemmas -/

theorem str_colon : str ": " = [58, 32] := by decide
theorem str_brk : str "] [" = [93, 32, 91] := by decide
theorem str_cut : str "[]" = [91, 93] := by decide
theorem str_lb : str "[" = [91] := by decide
theorem str_rb : str "]" = [93] := by decide
theorem str_rbcolon : str "]: " = [93, 58, 32] := by decide

theorem HasPrefix_iff (s p : GoString) : HasPrefix s p = true ↔ p <+: s := by
  induction p generalizing s with
  | nil => simp [HasPrefix]
  | cons b p ih =>
    cases s with
    | nil => simp [HasPrefix]
    | cons a s =>
      simp only [HasPrefix, Bool.and_eq_true, beq_iff_eq, ih, List.cons_prefix_cons]
      constructor
      · rintro ⟨h1, h2⟩; exact ⟨h1.symm, h2⟩
      · rintro ⟨h1, h2⟩; exact ⟨h1.symm, h2⟩

theorem Index_cons (b : Byte) (s sep : GoString) :
    Index (b :: s) sep = if sep <+: b :: s then some 0 else (Index s sep).map (· + 1) := by
  simp only [Index]
  by_cases h : HasPrefix (b :: s) sep = true
  · rw [if_pos h, if_pos ((HasPrefix_iff _ _).1 h)]
  · rw [if_neg h, if_neg (fun h1 => h ((HasPrefix_iff _ _).2 h1))]

theorem Index_nil (sep : GoString) : Index [] sep = if sep = [] then some 0 else none := by
  cases sep <;> simp [Index, HasPrefix]

/-- The value of `Index` is the least offset at which `sep` starts. -/
theorem Index_eq_some_iff (s sep : GoString) (m : Nat) :
    Index s sep = some m ↔
      (sep <+: s.drop m ∧ m ≤ s.length ∧ ∀ p, p < m → ¬ sep <+: s.drop p) := by
  induction s generalizing m with
  | nil =>
    rw [Index_nil]
    by_cases h : sep = []
    · subst h
      simp only [if_true, Option.some.injEq, List.drop_nil, List.prefix_rfl, List.length_nil,
        Nat.le_zero_eq, not_true_eq_false, imp_false, Nat.not_lt, true_and]
      constructor
      · rintro rfl; simp
      · rintro ⟨h, -⟩; exact h.symm
    · simp [h]
  | cons b s ih =>
    rw [Index_cons]
    by_cases h : sep <+: b :: s
    · rw [if_pos h]
      constructor
      · intro hm
        have : m = 0 := by simpa using hm.symm
        subst this
        simp [h]
      · rintro ⟨h1, h2, h3⟩
        cases m with
        | zero => rfl
        | succ m => exact absurd h (by simpa using h3 0 (Nat.succ_pos _))
    · rw [if_neg h]
      cases m with
      | zero =>
        simp only [List.drop_zero, Nat.zero_le, Nat.not_lt_zero, false_implies, implies_true,
          and_true, true_and, h, iff_false]
        cases Index s sep <;> simp
      | succ m =>
        have : (Index s sep).map (· + 1) = some (m + 1) ↔ Index s sep = some m := by
          cases Index s sep <;> simp
        rw [this, ih m]
        simp only [List.drop_succ_cons, List.length_cons, Nat.add_le_add_iff_right]
        constructor
        · rintro ⟨h1, h2, h3⟩
          refine ⟨h1, h2, ?_⟩
          intro p hp
          cases p with
          | zero => simpa using h
          | succ p => simpa using h3 p (by omega)
        · rintro ⟨h1, h2, h3⟩
          refine ⟨h1, h2, ?_⟩
          intro p hp
          simpa using h3 (p + 1) (by omega)

theorem Index_eq_none_iff (s sep : GoString) : Index s sep = none ↔ ¬ sep <:+: s := by
  induction s with
  | nil =>
    rw [Index_nil]
    by_cases h : sep = [] <;> simp [h]
  | cons b s ih =>
    rw [Index_cons, List.infix_cons_iff]
    by_cases h : sep <+: b :: s
    · simp [h]
    · rw [if_neg h]
      have : (Index s sep).map (· + 1) = none ↔ Index s sep = none := by
        cases Index s sep <;> simp
      rw [this, ih]
      simp [h]

theorem Index_of_FirstCut {sep s pre post : GoString} (h : FirstCut sep s pre post) :
    Index s sep = some pre.length := by
  obtain ⟨h1, h2⟩ := h
  rw [Index_eq_some_iff]
  refine ⟨?_, ?_, h2⟩
  · subst h1
    simp [List.append_assoc]
  · subst h1
    simp only [List.length_append]; omega

theorem FirstCut_of_Index {sep s : GoString} {m : Nat} (h : Index s sep = some m) :
    FirstCut sep s (s.take m) (s.drop (m + sep.length)) ∧ (s.take m).length = m := by
  rw [Index_eq_some_iff] at h
  obtain ⟨⟨t, ht⟩, h2, h3⟩ := h
  have hlen : (s.take m).length = m := by simp [h2]
  refine ⟨⟨?_, ?_⟩, hlen⟩
  · have ht2 : s.drop (m + sep.length) = t := by
      rw [← List.drop_drop, ← ht]; simp
    rw [ht2, List.append_assoc, ht, List.take_append_drop]
  · rw [hlen]; exact h3

theorem FirstCut_unique {sep s pre post pre1 post1 : GoString}
    (h : FirstCut sep s pre post) (h1 : FirstCut sep s pre1 post1) :
    pre = pre1 ∧ post = post1 := by
  have e := Index_of_FirstCut h
  rw [Index_of_FirstCut h1] at e
  have e : pre1.length = pre.length := by simpa using e
  have hs := h.1
  rw [h1.1, List.append_assoc, List.append_assoc] at hs
  have := List.append_inj hs e
  refine ⟨this.1.symm, ?_⟩
  exact (List.append_cancel_left this.2).symm

theorem SplitN_two (s sep : GoString) (hsep : sep ≠ []) :
    SplitN s sep 2 =
      match Index s sep with
      | none => [s]
      | some m => [s.take m, s.drop (m + sep.length)] := by
  cases s with
  | nil =>
    simp [SplitN, splitLoop, Index_nil, hsep]
  | cons b s =>
    have : min 2 ((b :: s).length + 1) - 1 = 1 := by simp only [List.length_cons]; omega
    simp only [SplitN, this, splitLoop]
    cases Index (b :: s) sep <;> simp

/-- The parsing step in terms of the two `Index` calls inside `SplitN`. -/
theorem parseLine_eq (a line : GoString) :
    parseLine a line =
      (Index line (str ": ")).bind fun m =>
        (Index (line.take m) (str "] [")).bind fun k =>
          some { ApplicationID := a,
                 LogLevel := Trim ((line.take m).drop (k + 3)) (str "[]"),
                 Timestamp := Trim ((line.take m).take k) (str "[]"),
                 LogMessage := line.drop (m + 2) } := by
  unfold parseLine
  simp only []
  rw [SplitN_two _ _ (by decide)]
  cases h : Index line (str ": ") with
  | none => simp
  | some m =>
    simp only [List.length_cons, List.length_nil, ne_eq, not_true_eq_false, if_false,
      Option.some_bind, List.getD_cons_zero, Nat.reduceAdd]
    rw [SplitN_two _ _ (by decide)]
    cases h1 : Index (line.take m) (str "] [") with
    | none => simp
    | some k => simp [str_brk, str_colon]

theorem no_start_append (sep xs ys : GoString) (h1 : ¬ sep <:+: xs)
    (h2 : ∀ k, 0 < k → k < sep.length → ¬ sep.drop k <+: ys) :
    ∀ p, p < xs.length → ¬ sep <+: (xs ++ ys).drop p := by
  intro p hp hpre
  rw [List.drop_append_of_le_length (Nat.le_of_lt hp)] at hpre
  have hu : 0 < (xs.drop p).length := by simp; omega
  have hsuf : xs.drop p <:+ xs := List.drop_suffix p xs
  obtain ⟨t, ht⟩ := hpre
  rcases List.append_eq_append_iff.1 ht with ⟨a, ha, -⟩ | ⟨c, hc, hys⟩
  · exact h1 (List.IsInfix.trans ⟨[], a, by simp [ha]⟩ hsuf.isInfix)
  · by_cases hcn : c = []
    · subst hcn
      exact h1 (List.IsInfix.trans ⟨[], [], by simp [hc]⟩ hsuf.isInfix)
    · have hclen : 0 < c.length := List.length_pos.2 hcn
      apply h2 (xs.drop p).length hu
      · rw [hc, List.length_append]; omega
      · rw [hc, List.drop_left]
        exact ⟨t, hys.symm⟩

theorem Index_append (sep xs ys : GoString) (h1 : ¬ sep <:+: xs)
    (h2 : ∀ k, 0 < k → k < sep.length → ¬ sep.drop k <+: ys) :
    Index (xs ++ ys) sep = (Index ys sep).map (· + xs.length) := by
  induction xs with
  | nil =>
    simp only [List.nil_append, List.length_nil, Nat.add_zero]
    cases Index ys sep <;> simp
  | cons b t ih =>
    have h0 := no_start_append sep (b :: t) ys h1 h2 0 (by simp)
    rw [List.drop_zero, List.cons_append] at h0
    rw [List.cons_append, Index_cons, if_neg h0, ih (fun h => h1 (List.infix_cons h))]
    cases Index ys sep <;> simp
    omega

theorem Index_append2 (a b : Byte) (xs ys : GoString) (h1 : ¬ [a, b] <:+: xs)
    (h2 : ¬ [b] <+: ys) :
    Index (xs ++ ys) [a, b] = (Index ys [a, b]).map (· + xs.length) := by
  apply Index_append _ _ _ h1
  intro k hk0 hk
  have : k = 1 := by simp at hk; omega
  subst this
  simpa using h2

theorem Index_append3 (a b c : Byte) (xs ys : GoString) (h1 : ¬ [a, b, c] <:+: xs)
    (h2 : ¬ [b, c] <+: ys) (h3 : ¬ [c] <+: ys) :
    Index (xs ++ ys) [a, b, c] = (Index ys [a, b, c]).map (· + xs.length) := by
  apply Index_append _ _ _ h1
  intro k hk0 hk
  have : k = 1 ∨ k = 2 := by simp at hk; omega
  rcases this with rfl | rfl
  · simpa using h2
  · simpa using h3

/-- An occurrence of a non-empty `sep` inside `pre` starts before offset `pre.length`. -/
theorem FirstCut.not_infix {sep s pre post : GoString} (h : FirstCut sep s pre post)
    (hsep : sep ≠ []) : ¬ sep <:+: pre := by
  rintro ⟨l1, l2, hl⟩
  obtain ⟨hs, hfirst⟩ := h
  have hlen : 0 < sep.length := List.length_pos.2 hsep
  apply hfirst l1.length
  · rw [← hl]; simp only [List.length_append]; omega
  · rw [hs, ← hl]
    simp only [List.append_assoc, List.drop_left]
    exact List.prefix_append _ _

/-- For a separator none of whose proper suffixes is a prefix of it, the first
occurrence in `pre ++ sep ++ post` is the visible one as soon as `sep` does not
occur in `pre`. -/
theorem FirstCut_of_not_infix (sep pre post : GoString) (h1 : ¬ sep <:+: pre)
    (hu : ∀ k, 0 < k → k < sep.length → ¬ sep.drop k <+: sep) :
    FirstCut sep (pre ++ sep ++ post) pre post := by
  refine ⟨rfl, ?_⟩
  rw [List.append_assoc]
  apply no_start_append _ _ _ h1
  intro k hk0 hk hpre
  apply hu k hk0 hk
  exact List.prefix_of_prefix_length_le hpre (List.prefix_append _ _) (by simp)

theorem unbordered_colon : ∀ k, 0 < k → k < (str ": ").length → ¬ (str ": ").drop k <+: str ": " := by
  intro k hk0 hk
  rw [str_colon] at hk ⊢
  have : k = 1 := by simp at hk; omega
  subst this; decide

theorem unbordered_brk : ∀ k, 0 < k → k < (str "] [").length → ¬ (str "] [").drop k <+: str "] [" := by
  intro k hk0 hk
  rw [str_brk] at hk ⊢
  have : k = 1 ∨ k = 2 := by simp at hk; omega
  rcases this with rfl | rfl <;> decide

theorem FirstCut_colon_iff (s pre post : GoString) :
    FirstCut (str ": ") s pre post ↔ s = pre ++ str ": " ++ post ∧ ¬ str ": " <:+: pre := by
  constructor
  · intro h; exact ⟨h.1, h.not_infix (by decide)⟩
  · rintro ⟨rfl, h⟩; exact FirstCut_of_not_infix _ _ _ h unbordered_colon

theorem FirstCut_brk_iff (s pre post : GoString) :
    FirstCut (str "] [") s pre post ↔ s = pre ++ str "] [" ++ post ∧ ¬ str "] [" <:+: pre := by
  constructor
  · intro h; exact ⟨h.1, h.not_infix (by decide)⟩
  · rintro ⟨rfl, h⟩; exact FirstCut_of_not_infix _ _ _ h unbordered_brk

/-! ### `Trim` -/

theorem trimLeftASCII_eq (s cutset : GoString) :
    trimLeftASCII s cutset = s.dropWhile fun b => decide (b ∈ cutset) := by
  induction s with
  | nil => rfl
  | cons b s ih =>
    by_cases h : b ∈ cutset <;> simp [trimLeftASCII, List.dropWhile, h, ih]

theorem dropWhile_append_all (p : Byte → Bool) (l t : GoString) (h : ∀ b ∈ l, p b = true) :
    (l ++ t).dropWhile p = t.dropWhile p := by
  induction l with
  | nil => rfl
  | cons b l ih =>
    have hb : p b = true := h b (by simp)
    simp only [List.cons_append, List.dropWhile_cons, hb, if_true]
    exact ih (fun x hx => h x (by simp [hx]))

theorem dropWhile_head_neg (p : Byte → Bool) (t : GoString)
    (h : ∀ b, t.head? = some b → p b = false) : t.dropWhile p = t := by
  cases t with
  | nil => rfl
  | cons b t => simp [List.dropWhile_cons, h b rfl]

theorem Trim_of_Stripped {cutset seg out : GoString} (h : Stripped cutset seg out) :
    Trim seg cutset = out := by
  obtain ⟨l, r, rfl, hl, hr, hh, ht⟩ := h
  unfold Trim
  split
  · rename_i h0
    rcases h0 with h0 | h0
    · simp only [List.append_eq_nil] at h0
      exact h0.1.2 ▸ (by simp [h0.1.1, h0.2])
    · subst h0
      have hl0 : l = [] := List.eq_nil_iff_forall_not_mem.2 fun b hb => by simpa using hl b hb
      have hr0 : r = [] := List.eq_nil_iff_forall_not_mem.2 fun b hb => by simpa using hr b hb
      simp [hl0, hr0]
  · rw [trimLeftASCII_eq, trimRightASCII, trimLeftASCII_eq]
    by_cases ho : out = []
    · subst ho
      have e1 : ((l ++ [] ++ r).reverse.dropWhile fun b => decide (b ∈ cutset)) = [] := by
        rw [List.dropWhile_eq_nil_iff]
        intro b hb
        simp only [List.append_nil, List.mem_reverse, List.mem_append] at hb
        rcases hb with hb | hb
        · simpa using hl b hb
        · simpa using hr b hb
      rw [e1]; rfl
    · have e1 : ((l ++ out ++ r).reverse.dropWhile fun b => decide (b ∈ cutset))
          = out.reverse ++ l.reverse := by
        rw [List.reverse_append, List.reverse_append,
          dropWhile_append_all _ _ _ (by simpa using hr)]
        apply dropWhile_head_neg
        intro b hb
        have : out.reverse ≠ [] := by simpa using ho
        rw [List.head?_append_of_ne_nil _ this, List.head?_reverse] at hb
        simpa using ht b hb
      rw [e1, List.reverse_append, List.reverse_reverse, List.reverse_reverse,
        dropWhile_append_all _ _ _ (by simpa using hl)]
      apply dropWhile_head_neg
      intro b hb
      simpa using hh b hb

theorem head?_dropWhile_neg (p : Byte → Bool) (s : GoString) (b : Byte)
    (h : (s.dropWhile p).head? = some b) : p b = false := by
  have := List.head?_dropWhile_not p s
  rw [h] at this
  simpa using this

theorem Stripped_Trim (s cutset : GoString) : Stripped cutset s (Trim s cutset) := by
  unfold Trim
  split
  · rename_i h0
    refine ⟨[], [], by simp, by simp, by simp, ?_, ?_⟩
    · rcases h0 with rfl | rfl <;> simp
    · rcases h0 with rfl | rfl <;> simp
  · rw [trimLeftASCII_eq, trimRightASCII, trimLeftASCII_eq]
    generalize hp : (fun b => decide (b ∈ cutset)) = p
    have hpc : ∀ b, p b = true → b ∈ cutset := by intro b hb; subst hp; simpa using hb
    have hpn : ∀ b, p b = false → b ∉ cutset := by intro b hb; subst hp; simpa using hb
    set m := (s.reverse.dropWhile p).reverse with hm
    have hs : s = m ++ (s.reverse.takeWhile p).reverse := by
      rw [hm, ← List.reverse_append, List.takeWhile_append_dropWhile, List.reverse_reverse]
    have hmid : m = m.takeWhile p ++ m.dropWhile p := (List.takeWhile_append_dropWhile p m).symm
    refine ⟨m.takeWhile p, (s.reverse.takeWhile p).reverse, ?_, ?_, ?_, ?_, ?_⟩
    · rw [← hmid]; exact hs
    · intro b hb; exact hpc b (List.mem_takeWhile_imp hb)
    · intro b hb; exact hpc b (List.mem_takeWhile_imp (List.mem_reverse.1 hb))
    · intro b hb; exact hpn b (head?_dropWhile_neg p m b hb)
    · intro b hb
      have hne : m.dropWhile p ≠ [] := by
        intro h; rw [h] at hb; simp at hb
      have hlast : m.getLast? = some b := by
        rw [hmid, List.getLast?_append_of_ne_nil _ hne]; exact hb
      rw [hm, List.getLast?_reverse] at hlast
      exact hpn b (head?_dropWhile_neg p _ b hlast)

theorem Trim_eq_iff (s cutset out : GoString) : Trim s cutset = out ↔ Stripped cutset s out := by
  constructor
  · rintro rfl; exact Stripped_Trim s cutset
  · exact Trim_of_Stripped

theorem NoBracketAtEnds_iff (s : GoString) :
    NoBracketAtEnds s ↔
      (∀ b, s.head? = some b → b ∉ str "[]") ∧ (∀ b, s.getLast? = some b → b ∉ str "[]") := by
  unfold NoBracketAtEnds
  rw [str_lb, str_rb, str_cut]
  have hpre : ∀ c : Byte, [c] <+: s ↔ s.head? = some c := by
    intro c; cases s <;> simp [eq_comm]
  have hsuf : ∀ c : Byte, [c] <:+ s ↔ s.getLast? = some c := by
    intro c
    rw [← List.reverse_prefix, ← List.head?_reverse]
    cases s.reverse <;> simp [eq_comm]
  simp only [hpre, hsuf, List.mem_cons, List.mem_singleton, List.not_mem_nil, or_false, not_or]
  constructor
  · rintro ⟨h1, h2, h3, h4⟩
    exact ⟨fun b hb => ⟨fun e => h1 (e ▸ hb), fun e => h2 (e ▸ hb)⟩,
      fun b hb => ⟨fun e => h3 (e ▸ hb), fun e => h4 (e ▸ hb)⟩⟩
  · rintro ⟨h1, h2⟩
    exact ⟨fun h => (h1 _ h).1 rfl, fun h => (h1 _ h).2 rfl, fun h => (h2 _ h).1 rfl,
      fun h => (h2 _ h).2 rfl⟩

theorem Stripped.noBracket {seg out : GoString} (h : Stripped (str "[]") seg out) :
    NoBracketAtEnds out := by
  obtain ⟨l, r, -, -, -, h1, h2⟩ := h
  exact (NoBracketAtEnds_iff out).2 ⟨h1, h2⟩

theorem Trim_lb_cons (ts : GoString) (h : NoBracketAtEnds ts) :
    Trim (str "[" ++ ts) (str "[]") = ts := by
  apply Trim_of_Stripped
  rw [NoBracketAtEnds_iff] at h
  refine ⟨str "[", [], by simp, by simp [str_lb, str_cut], by simp, h.1, h.2⟩

theorem Trim_append_rb (lvl : GoString) (h : NoBracketAtEnds lvl) :
    Trim (lvl ++ str "]") (str "[]") = lvl := by
  apply Trim_of_Stripped
  rw [NoBracketAtEnds_iff] at h
  refine ⟨[], str "]", by simp, by simp, by simp [str_rb, str_cut], h.1, h.2⟩

/-! ## The line parser: lemmas -/

theorem parseLine_eq_some_iff (a line : GoString) (d : LogData) :
    parseLine a line = some d ↔
      ∃ metadata tsSeg lvlSeg,
        FirstCut (str ": ") line metadata d.LogMessage ∧
        FirstCut (str "] [") metadata tsSeg lvlSeg ∧
        Stripped (str "[]") tsSeg d.Timestamp ∧
        Stripped (str "[]") lvlSeg d.LogLevel ∧
        d.ApplicationID = a := by
  rw [parseLine_eq]
  constructor
  · intro h
    cases h1 : Index line (str ": ") with
    | none => simp [h1] at h
    | some m =>
      cases h2 : Index (line.take m) (str "] [") with
      | none => simp [h1, h2] at h
      | some k =>
        simp only [h1, h2, Option.some_bind, Option.some.injEq] at h
        subst h
        obtain ⟨c1, -⟩ := FirstCut_of_Index h1
        obtain ⟨c2, -⟩ := FirstCut_of_Index h2
        refine ⟨line.take m, (line.take m).take k, (line.take m).drop (k + 3), ?_, ?_,
          Stripped_Trim _ _, Stripped_Trim _ _, rfl⟩
        · simpa [str_colon] using c1
        · simpa [str_brk] using c2
  · rintro ⟨metadata, tsSeg, lvlSeg, c1, c2, s1, s2, ha⟩
    have e1 := Index_of_FirstCut c1
    have e2 := Index_of_FirstCut c2
    have t1 : line.take metadata.length = metadata := by
      rw [c1.1, List.append_assoc, List.take_left]
    have t2 : line.drop (metadata.length + 2) = d.LogMessage := by
      have : metadata.length + 2 = (metadata ++ str ": ").length := by simp [str_colon]
      rw [c1.1, this, List.drop_left]
    have t3 : metadata.take tsSeg.length = tsSeg := by
      rw [c2.1, List.append_assoc, List.take_left]
    have t4 : metadata.drop (tsSeg.length + 3) = lvlSeg := by
      have : tsSeg.length + 3 = (tsSeg ++ str "] [").length := by simp [str_brk]
      rw [c2.1, this, List.drop_left]
    simp only [e1, Option.some_bind, t1, e2, t2, t3, t4, Trim_of_Stripped s1,
      Trim_of_Stripped s2, Option.some.injEq]
    cases d
    simp_all

theorem parseLine_eq_none_iff (a line : GoString) :
    parseLine a line = none ↔
      ¬ str ": " <:+: line ∨
        ∃ metadata msg, FirstCut (str ": ") line metadata msg ∧ ¬ str "] [" <:+: metadata := by
  rw [parseLine_eq]
  cases h1 : Index line (str ": ") with
  | none =>
    simp only [Option.none_bind, true_iff]
    exact Or.inl ((Index_eq_none_iff _ _).1 h1)
  | some m =>
    obtain ⟨c1, -⟩ := FirstCut_of_Index h1
    have hin : str ": " <:+: line := by
      by_contra hc
      rw [(Index_eq_none_iff _ _).2 hc] at h1
      cases h1
    simp only [Option.some_bind]
    cases h2 : Index (line.take m) (str "] [") with
    | none =>
      simp only [Option.none_bind, true_iff]
      exact Or.inr ⟨_, _, c1, (Index_eq_none_iff _ _).1 h2⟩
    | some k =>
      simp only [Option.some_bind, reduceCtorEq, false_iff, not_or, not_not, not_exists, not_and]
      refine ⟨hin, ?_⟩
      intro metadata msg c
      by_contra hno
      obtain ⟨e, -⟩ := FirstCut_unique c c1
      rw [e, ← Index_eq_none_iff, h2] at hno
      cases hno

theorem not_infix_append2 (a b : Byte) (xs ys : GoString) (h1 : ¬ [a, b] <:+: xs)
    (h2 : ¬ [b] <+: ys) (h3 : ¬ [a, b] <:+: ys) : ¬ [a, b] <:+: xs ++ ys := by
  rw [← Index_eq_none_iff] at h3 ⊢
  rw [Index_append2 a b xs ys h1 h2, h3]; rfl

theorem not_infix_append3 (a b c : Byte) (xs ys : GoString) (h1 : ¬ [a, b, c] <:+: xs)
    (h2 : ¬ [b, c] <+: ys) (h3 : ¬ [c] <+: ys) (h4 : ¬ [a, b, c] <:+: ys) :
    ¬ [a, b, c] <:+: xs ++ ys := by
  rw [← Index_eq_none_iff] at h4 ⊢
  rw [Index_append3 a b c xs ys h1 h2 h3, h4]; rfl

/-- The well-formed line `[ts] [lvl]: msg` parses to its three parts. -/
theorem parseLine_bracketed (a ts lvl msg : GoString)
    (hts1 : ¬ str ": " <:+: ts) (hts2 : ¬ str "] [" <:+: ts) (hts3 : NoBracketAtEnds ts)
    (hlvl1 : ¬ str ": " <:+: lvl) (hlvl3 : NoBracketAtEnds lvl) :
    parseLine a (str "[" ++ ts ++ str "] [" ++ lvl ++ str "]: " ++ msg)
      = some { ApplicationID := a, LogLevel := lvl, Timestamp := ts, LogMessage := msg } := by
  rw [parseLine_eq_some_iff]
  refine ⟨str "[" ++ ts ++ str "] [" ++ lvl ++ str "]", str "[" ++ ts, lvl ++ str "]",
    ?_, ?_, ?_, ?_, rfl⟩
  · rw [FirstCut_colon_iff]
    refine ⟨by simp [str_colon, str_rbcolon, str_rb], ?_⟩
    rw [str_colon] at hts1 hlvl1 ⊢
    simp only [str_lb, str_brk, str_rb, List.append_assoc, List.singleton_append,
      List.cons_append, List.nil_append]
    rw [List.infix_cons_iff]
    simp only [List.cons_prefix_cons, Fin.reduceEq, false_and, false_or]
    apply not_infix_append2 _ _ _ _ hts1 (by simp)
    simp only [List.infix_cons_iff, List.cons_prefix_cons, Fin.reduceEq, false_and, false_or]
    apply not_infix_append2 _ _ _ _ hlvl1 (by simp)
    simp [List.infix_cons_iff]
  · rw [FirstCut_brk_iff]
    refine ⟨by simp, ?_⟩
    rw [str_brk] at hts2 ⊢
    simp only [str_lb, List.singleton_append]
    rw [List.infix_cons_iff]
    simp only [List.cons_prefix_cons, Fin.reduceEq, false_and, false_or]
    exact hts2
  · rw [← Trim_eq_iff]; exact Trim_lb_cons ts hts3
  · rw [← Trim_eq_iff]; exact Trim_append_rb lvl hlvl3

/-- The converse of `parseLine_bracketed`: a line `[ts] [lvl]: msg` that parses to
exactly `ts`, `lvl` and `msg` has `ts` and `lvl` free of the separators and of
brackets at their ends. -/
theorem parseLine_bracketed_conv (a ts lvl msg : GoString)
    (h : parseLine a (str "[" ++ ts ++ str "] [" ++ lvl ++ str "]: " ++ msg)
      = some { ApplicationID := a, LogLevel := lvl, Timestamp := ts, LogMessage := msg }) :
    ¬ str ": " <:+: ts ∧ ¬ str "] [" <:+: ts ∧ NoBracketAtEnds ts ∧
      ¬ str ": " <:+: lvl ∧ NoBracketAtEnds lvl := by
  rw [parseLine_eq_some_iff] at h
  obtain ⟨metadata, tsSeg, lvlSeg, c1, c2, s1, s2, -⟩ := h
  simp only at c1 s1 s2
  have hline : str "[" ++ ts ++ str "] [" ++ lvl ++ str "]: " ++ msg
      = (str "[" ++ ts ++ str "] [" ++ lvl ++ str "]") ++ str ": " ++ msg := by
    simp [str_colon, str_rbcolon, str_rb]
  have hmeta : metadata = str "[" ++ ts ++ str "] [" ++ lvl ++ str "]" := by
    have := c1.1
    rw [hline] at this
    exact (List.append_cancel_right (List.append_cancel_right this)).symm
  have hno1 := c1.not_infix (by decide)
  have hno2 := c2.not_infix (by decide)
  have hts1 : ¬ str ": " <:+: ts := fun hin => hno1 (by
    rw [hmeta]
    exact hin.trans ⟨str "[", str "] [" ++ lvl ++ str "]", by simp⟩)
  have hlvl1 : ¬ str ": " <:+: lvl := fun hin => hno1 (by
    rw [hmeta]
    exact hin.trans ⟨str "[" ++ ts ++ str "] [", str "]", by simp⟩)
  -- the visible `] [` is an occurrence at offset `1 + ts.length`
  have hocc : str "] [" <+: metadata.drop (1 + ts.length) := by
    have : 1 + ts.length = (str "[" ++ ts).length := by simp [str_lb]; omega
    have e : str "[" ++ ts ++ str "] [" ++ lvl ++ str "]"
        = (str "[" ++ ts) ++ (str "] [" ++ (lvl ++ str "]")) := by simp
    rw [hmeta, this, e, List.drop_left]
    exact List.prefix_append _ _
  have hle : tsSeg.length ≤ 1 + ts.length := by
    by_contra hlt
    exact c2.2 (1 + ts.length) (by omega) hocc
  obtain ⟨l, r, hseg, -, -, hhead, -⟩ := id s1
  have hge : ts.length ≤ tsSeg.length := by
    rw [hseg]; simp only [List.length_append]; omega
  have hpre : tsSeg <+: str "[" ++ ts ++ str "] [" ++ lvl ++ str "]" := by
    rw [← hmeta, c2.1, List.append_assoc]
    exact List.prefix_append _ _
  have hseg1 : tsSeg = str "[" ++ ts := by
    rcases Nat.lt_or_ge ts.length tsSeg.length with hlt | hge1
    · have hlen : tsSeg.length = (str "[" ++ ts).length := by simp [str_lb]; omega
      have hp2 : str "[" ++ ts <+: str "[" ++ ts ++ str "] [" ++ lvl ++ str "]" := by
        simp only [List.append_assoc]
        exact List.prefix_append _ _
      exact (List.prefix_of_prefix_length_le hpre hp2 (by omega)).eq_of_length hlen
    · exfalso
      have hlen : tsSeg.length = ts.length := by omega
      have hl : l = [] := by
        apply List.eq_nil_of_length_eq_zero
        have := congrArg List.length hseg
        simp only [List.length_append] at this; omega
      have hr : r = [] := by
        apply List.eq_nil_of_length_eq_zero
        have := congrArg List.length hseg
        simp only [List.length_append] at this; omega
      subst hl hr
      simp only [List.nil_append, List.append_nil] at hseg
      subst hseg
      rw [str_lb] at hpre
      cases tsSeg with
      | nil =>
        have := c2.1
        rw [hmeta, str_lb, str_brk] at this
        simp at this
      | cons b t =>
        simp only [List.singleton_append, List.cons_append, List.cons_prefix_cons] at hpre
        have := hhead b rfl
        rw [hpre.1, str_cut] at this
        simp at this
  have hts2 : ¬ str "] [" <:+: ts := fun hin => hno2 (by
    rw [hseg1]
    exact hin.trans ⟨str "[", [], by simp⟩)
  have hseg2 : lvlSeg = lvl ++ str "]" := by
    have := c2.1
    rw [hmeta, hseg1] at this
    simp only [List.append_assoc] at this
    exact (List.append_cancel_left (List.append_cancel_left (List.append_cancel_left this))).symm
  exact ⟨hts1, hts2, s1.noBracket, hlvl1, s2.noBracket⟩

/-! ## The line parser: the claims -/

/-- C10: for every `ts` that contains neither `": "` nor `"] ["` and neither begins
nor ends with a bracket, every `lvl` that does not contain `": "` and neither
begins nor ends with a bracket (both possibly empty), and every `msg` whatsoever,
the line `"[" + ts + "] [" + lvl + "]: " + msg` parses to timestamp `ts`, level
`lvl` and message `msg`. -/
theorem C10_permissive_parse (a ts lvl msg : GoString)
    (hts1 : ¬ str ": " <:+: ts) (hts2 : ¬ str "] [" <:+: ts) (hts3 : NoBracketAtEnds ts)
    (hlvl1 : ¬ str ": " <:+: lvl) (hlvl3 : NoBracketAtEnds lvl) :
    parseLine a (str "[" ++ ts ++ str "] [" ++ lvl ++ str "]: " ++ msg)
      = some { ApplicationID := a, LogLevel := lvl, Timestamp := ts, LogMessage := msg } :=
  parseLine_bracketed a ts lvl msg hts1 hts2 hts3 hlvl1 hlvl3

/-- C10 at the line `[] []: a: b] [c: [d]`: empty timestamp and level, and a
message with further separators and brackets. -/
theorem C10_permissive_parse_witness :
    parseLine (str "seata") (str "[" ++ [] ++ str "] [" ++ [] ++ str "]: " ++ str "a: b] [c: [d]")
      = some { ApplicationID := str "seata", LogLevel := [], Timestamp := [],
               LogMessage := str "a: b] [c: [d]" } :=
  C10_permissive_parse (str "seata") [] [] (str "a: b] [c: [d]")
    (by decide) (by decide) (by decide) (by decide) (by decide)

/-- C10 with an empty message: the line `[t] [INFO]: ` is accepted with message `""`. -/
theorem C10_empty_message :
    parseLine (str "seata") (str "[t] [INFO]: ")
      = some { ApplicationID := str "seata", LogLevel := str "INFO", Timestamp := str "t",
               LogMessage := [] } := by
  decide

/-- C1, amended: the line `"[" + ts + "] [" + lvl + "]: " + msg` parses to exactly the
record `{a, ts, lvl, msg}` if and only if `ts` contains neither `": "` nor `"] ["`,
`lvl` does not contain `": "`, and neither `ts` nor `lvl` begins or ends with `[`
or `]`; the message `msg` is unconstrained, whatever whitespace it contains. -/
theorem C1_parse_exact_iff (a ts lvl msg : GoString) :
    parseLine a (str "[" ++ ts ++ str "] [" ++ lvl ++ str "]: " ++ msg)
        = some { ApplicationID := a, LogLevel := lvl, Timestamp := ts, LogMessage := msg } ↔
      (¬ str ": " <:+: ts ∧ ¬ str "] [" <:+: ts ∧ NoBracketAtEnds ts ∧
        ¬ str ": " <:+: lvl ∧ NoBracketAtEnds lvl) := by
  constructor
  · exact parseLine_bracketed_conv a ts lvl msg
  · rintro ⟨h1, h2, h3, h4, h5⟩
    exact parseLine_bracketed a ts lvl msg h1 h2 h3 h4 h5

/-- C1 at the example line of the specification, with a message full of blanks. -/
theorem C1_parse_exact_iff_witness :
    parseLine (str "seata")
        (str "[" ++ str "2024-01-01T10:00:00Z" ++ str "] [" ++ str "INFO" ++ str "]: "
          ++ str "  server \t started  ")
      = some { ApplicationID := str "seata", LogLevel := str "INFO",
               Timestamp := str "2024-01-01T10:00:00Z", LogMessage := str "  server \t started  " } :=
  (C1_parse_exact_iff (str "seata") (str "2024-01-01T10:00:00Z") (str "INFO")
    (str "  server \t started  ")).2 (by decide)

/-- C1 as stated fails: with timestamp `a: b` the line `[a: b] [INFO]: m` does not
parse at all, and with level `[WARN]` the line `[t] [[WARN]]: m` parses to level
`WARN`. -/
theorem C1_counterexample :
    parseLine (str "seata") (str "[" ++ str "a: b" ++ str "] [" ++ str "INFO" ++ str "]: " ++ str "m")
        = none ∧
      parseLine (str "seata") (str "[" ++ str "t" ++ str "] [" ++ str "[WARN]" ++ str "]: " ++ str "m")
        = some { ApplicationID := str "seata", LogLevel := str "WARN", Timestamp := str "t",
                 LogMessage := str "m" } ∧
      str "WARN" ≠ str "[WARN]" := by
  decide

/-- C2: the parsing step fails exactly when the line contains no `": "` or the text
before the first `": "` contains no `"] ["`; in particular a line without `": "`
and a line without `"] ["` both fail; and for a line that fails, the loop
iteration uploads nothing and leaves the remote side untouched. -/
theorem C2_parse_fails_iff (a line : GoString) :
    (parseLine a line = none ↔
      ¬ str ": " <:+: line ∨
        ∃ metadata msg, FirstCut (str ": ") line metadata msg ∧ ¬ str "] [" <:+: metadata) ∧
    (¬ str ": " <:+: line → parseLine a line = none) ∧
    (¬ str "] [" <:+: line → parseLine a line = none) ∧
    (parseLine a line = none →
      ∀ (σ : Type) (post : Endpoint σ) (filePath uploadURL : GoString) (r : Run σ),
        (scanStep post filePath a uploadURL r line).uploads = r.uploads ∧
        (scanStep post filePath a uploadURL r line).net = r.net) := by
  refine ⟨parseLine_eq_none_iff a line, ?_, ?_, ?_⟩
  · intro h
    exact (parseLine_eq_none_iff a line).2 (Or.inl h)
  · intro h
    rw [parseLine_eq_none_iff]
    by_cases hc : str ": " <:+: line
    · right
      have hsome : ∃ m, Index line (str ": ") = some m := by
        cases hi : Index line (str ": ") with
        | none => exact absurd hc ((Index_eq_none_iff _ _).1 hi)
        | some m => exact ⟨m, rfl⟩
      obtain ⟨m, hm⟩ := hsome
      obtain ⟨c1, -⟩ := FirstCut_of_Index hm
      exact ⟨_, _, c1, fun hin => h (hin.trans (List.take_prefix m line).isInfix)⟩
    · exact Or.inl hc
  · intro h σ post filePath uploadURL r
    simp [scanStep, h]

/-- C2 at the malformed line of the specification. -/
theorem C2_parse_fails_iff_witness :
    ¬ str ": " <:+: str "this is not a log line" ∧
      parseLine (str "seata") (str "this is not a log line") = none :=
  ⟨by decide, (C2_parse_fails_iff (str "seata") (str "this is not a log line")).2.1 (by decide)⟩

/-- C9, amended: for every line that parses, the timestamp of the record is the
timestamp segment (the text before the first `"] ["` of the metadata) without its
longest prefix and longest suffix of bracket bytes, `[` and `]` alike at either
end, and the level is the level segment (the text after that `"] ["`) stripped
in the same way; nothing else is changed, so brackets inside are kept. -/
theorem C9_trim_both_brackets (a line : GoString) (d : LogData)
    (h : parseLine a line = some d) :
    ∃ metadata tsSeg lvlSeg,
      FirstCut (str ": ") line metadata d.LogMessage ∧
      FirstCut (str "] [") metadata tsSeg lvlSeg ∧
      Stripped (str "[]") tsSeg d.Timestamp ∧
      Stripped (str "[]") lvlSeg d.LogLevel := by
  obtain ⟨metadata, tsSeg, lvlSeg, c1, c2, s1, s2, -⟩ := (parseLine_eq_some_iff a line d).1 h
  exact ⟨metadata, tsSeg, lvlSeg, c1, c2, s1, s2⟩

/-- C9 at the line `][a]b[] []c[d[: m`: the segments `][a]b[` and `]c[d[` give the
timestamp `a]b` and the level `c[d`. -/
theorem C9_trim_both_brackets_witness :
    ∃ metadata tsSeg lvlSeg,
      FirstCut (str ": ") (str "][a]b[] []c[d[: m") metadata (str "m") ∧
      FirstCut (str "] [") metadata tsSeg lvlSeg ∧
      Stripped (str "[]") tsSeg (str "a]b") ∧
      Stripped (str "[]") lvlSeg (str "c[d") :=
  C9_trim_both_brackets (str "seata") (str "][a]b[] []c[d[: m")
    { ApplicationID := str "seata", LogLevel := str "c[d", Timestamp := str "a]b",
      LogMessage := str "m" } (by decide)

/-- C9 as stated fails on the line `[t] [a[]]: m`: its level segment is `a[]]`;
removing the leading `[` bytes and the trailing `]` bytes would leave `a[`, but
the record's level is `a`. -/
theorem C9_counterexample :
    parseLine (str "seata") (str "[t] [a[]]: m")
        = some { ApplicationID := str "seata", LogLevel := str "a", Timestamp := str "t",
                 LogMessage := str "m" } ∧
      FirstCut (str ": ") (str "[t] [a[]]: m") (str "[t] [a[]]") (str "m") ∧
      FirstCut (str "] [") (str "[t] [a[]]") (str "[t") (str "a[]]") ∧
      stripLeadingOpenTrailingClose (str "a[]]") = str "a[" ∧
      str "a" ≠ stripLeadingOpenTrailingClose (str "a[]]") := by
  refine ⟨by decide, ?_, ?_, by decide, by decide⟩
  · rw [FirstCut_colon_iff]; exact ⟨by decide, by decide⟩
  · rw [FirstCut_brk_iff]; exact ⟨by decide, by decide⟩

/-! ## The uploader -/

theorem jsonMarshal_ok (d : LogData) : ∃ payload, jsonMarshal d = .ok payload :=
  ⟨_, rfl⟩

/-- C3: whatever response the POST receives, `uploadLog` returns `nil` if and only
if the status code is 200, whatever the body; for any other status code it returns
the error `failed to upload log: ` followed by the exact body text; and when the
POST itself fails it returns the error `failed to upload log: ` followed by the
text of the cause. -/
theorem C3_upload_outcome {σ : Type} (post : Endpoint σ) (net net1 : σ) (d : LogData)
    (uploadURL payload : GoString) (res : PostResult)
    (hm : jsonMarshal d = .ok payload)
    (hp : post net uploadURL (str "application/json") payload = (res, net1)) :
    match res with
    | .response code body =>
      ((uploadLog post net d uploadURL).1 = none ↔ code = 200) ∧
      (code ≠ 200 →
        (uploadLog post net d uploadURL).1 = some (str "failed to upload log: " ++ body) ∧
        body <:+: str "failed to upload log: " ++ body)
    | .failed cause =>
      (uploadLog post net d uploadURL).1 = some (str "failed to upload log: " ++ cause) ∧
      cause <:+: str "failed to upload log: " ++ cause := by
  cases res with
  | failed cause =>
    exact ⟨by simp [uploadLog, hm, hp], (List.suffix_append _ _).isInfix⟩
  | response code body =>
    refine ⟨?_, fun hc => ⟨by simp [uploadLog, hm, hp, hc], (List.suffix_append _ _).isInfix⟩⟩
    by_cases hc : code = 200 <;> simp [uploadLog, hm, hp, hc]

/-- C3 at an endpoint that answers 500 with body `internal error`. -/
theorem C3_upload_outcome_witness :
    ((uploadLog (fun (_ : Unit) _ _ _ => (PostResult.response 500 (str "internal error"), ()))
        () ⟨str "seata", str "INFO", str "t", str "m"⟩ (str "http://localhost:8080/upload")).1
          = none ↔ 500 = 200) ∧
    (500 ≠ 200 →
      (uploadLog (fun (_ : Unit) _ _ _ => (PostResult.response 500 (str "internal error"), ()))
        () ⟨str "seata", str "INFO", str "t", str "m"⟩ (str "http://localhost:8080/upload")).1
          = some (str "failed to upload log: " ++ str "internal error") ∧
      str "internal error" <:+: str "failed to upload log: " ++ str "internal error") :=
  C3_upload_outcome (fun (_ : Unit) _ _ _ => (PostResult.response 500 (str "internal error"), ()))
    () () ⟨str "seata", str "INFO", str "t", str "m"⟩ (str "http://localhost:8080/upload")
    _ (PostResult.response 500 (str "internal error")) rfl rfl

/-! ## The file processor -/

theorem scanStep_uploads {σ : Type} (post : Endpoint σ) (filePath appID uploadURL : GoString)
    (r : Run σ) (line : GoString) :
    (scanStep post filePath appID uploadURL r line).uploads
      = r.uploads ++ (parseLine appID line).toList := by
  unfold scanStep
  cases parseLine appID line with
  | none => simp
  | some d =>
    simp only [Option.toList_some]
    rcases h : uploadLog post r.net d uploadURL with ⟨_ | e, net1⟩ <;> simp [h]

theorem scanStep_done {σ : Type} (post : Endpoint σ) (filePath appID uploadURL : GoString)
    (r : Run σ) (line : GoString) :
    (scanStep post filePath appID uploadURL r line).done = r.done := by
  unfold scanStep
  cases parseLine appID line with
  | none => simp
  | some d =>
    rcases h : uploadLog post r.net d uploadURL with ⟨_ | e, net1⟩ <;> simp [h]

theorem scanStep_logs {σ : Type} (post : Endpoint σ) (filePath appID uploadURL : GoString)
    (r : Run σ) (line : GoString) :
    ∃ msg, (scanStep post filePath appID uploadURL r line).logs = r.logs ++ [msg] := by
  unfold scanStep
  cases parseLine appID line with
  | none => exact ⟨_, rfl⟩
  | some d =>
    rcases h : uploadLog post r.net d uploadURL with ⟨_ | e, net1⟩ <;>
      simp only [h] <;> exact ⟨_, rfl⟩

theorem foldl_scanStep_uploads {σ : Type} (post : Endpoint σ)
    (filePath appID uploadURL : GoString) (lines : List GoString) (r : Run σ) :
    (lines.foldl (scanStep post filePath appID uploadURL) r).uploads
      = r.uploads ++ lines.filterMap (parseLine appID) := by
  induction lines generalizing r with
  | nil => simp
  | cons line rest ih =>
    rw [List.foldl_cons, ih, scanStep_uploads, List.filterMap_cons]
    cases parseLine appID line <;> simp

theorem foldl_scanStep_done {σ : Type} (post : Endpoint σ)
    (filePath appID uploadURL : GoString) (lines : List GoString) (r : Run σ) :
    (lines.foldl (scanStep post filePath appID uploadURL) r).done = r.done := by
  induction lines generalizing r with
  | nil => simp
  | cons line rest ih => rw [List.foldl_cons, ih, scanStep_done]

theorem foldl_scanStep_logs {σ : Type} (post : Endpoint σ)
    (filePath appID uploadURL : GoString) (lines : List GoString) (r : Run σ) :
    ∃ L, (lines.foldl (scanStep post filePath appID uploadURL) r).logs = r.logs ++ L ∧
      L.length = lines.length := by
  induction lines generalizing r with
  | nil => exact ⟨[], by simp⟩
  | cons line rest ih =>
    obtain ⟨msg, hmsg⟩ := scanStep_logs post filePath appID uploadURL r line
    obtain ⟨L, hL, hlen⟩ := ih (scanStep post filePath appID uploadURL r line)
    refine ⟨msg :: L, ?_, by simp [hlen]⟩
    rw [List.foldl_cons, hL, hmsg]; simp

theorem processLogFile_done {σ : Type} (post : Endpoint σ)
    (filePath appID uploadURL : GoString) (file : OpenResult) (net : σ) :
    (processLogFile post filePath appID uploadURL file net).done = 1 := by
  unfold processLogFile
  cases file with
  | failed err => rfl
  | opened lines scanErr =>
    cases scanErr <;> simp [foldl_scanStep_done]

theorem processLogFile_uploads {σ : Type} (post : Endpoint σ)
    (filePath appID uploadURL : GoString) (lines : List GoString) (scanErr : Option GoString)
    (net : σ) :
    (processLogFile post filePath appID uploadURL (.opened lines scanErr) net).uploads
      = lines.filterMap (parseLine appID) := by
  unfold processLogFile
  cases scanErr <;> simp [foldl_scanStep_uploads]

theorem scanStep_recording {σ : Type} (post : Endpoint σ)
    (filePath appID uploadURL : GoString) (r : Run (σ × List GoString)) (line : GoString) :
    ∃ bodies, (scanStep (recording post) filePath appID uploadURL r line).net.2 = r.net.2 ++ bodies ∧
      List.Forall₂ (fun d body => jsonMarshal d = .ok body) (parseLine appID line).toList bodies := by
  unfold scanStep
  cases parseLine appID line with
  | none => exact ⟨[], by simp, by simp⟩
  | some d =>
    obtain ⟨payload, hp⟩ := jsonMarshal_ok d
    refine ⟨[payload], ?_, by simp [hp]⟩
    simp only [uploadLog, hp, recording]
    cases (post r.net.1 uploadURL (str "application/json") payload).1 with
    | failed err => rfl
    | response code body =>
      by_cases hc : code = 200 <;> simp [hc]

theorem foldl_scanStep_recording {σ : Type} (post : Endpoint σ)
    (filePath appID uploadURL : GoString) (lines : List GoString)
    (r : Run (σ × List GoString)) :
    ∃ bodies,
      (lines.foldl (scanStep (recording post) filePath appID uploadURL) r).net.2
        = r.net.2 ++ bodies ∧
      List.Forall₂ (fun d body => jsonMarshal d = .ok body)
        (lines.filterMap (parseLine appID)) bodies := by
  induction lines generalizing r with
  | nil => exact ⟨[], by simp, by simp⟩
  | cons line rest ih =>
    obtain ⟨b1, h1, f1⟩ := scanStep_recording post filePath appID uploadURL r line
    obtain ⟨b2, h2, f2⟩ := ih (scanStep (recording post) filePath appID uploadURL r line)
    refine ⟨b1 ++ b2, ?_, ?_⟩
    · rw [List.foldl_cons, h2, h1, List.append_assoc]
    · rw [List.filterMap_cons]
      cases hp : parseLine appID line with
      | none =>
        rw [hp] at f1
        simp only [Option.toList_none, List.forall₂_nil_left_iff] at f1
        subst f1
        simpa using f2
      | some d =>
        rw [hp] at f1
        simp only [Option.toList_some] at f1
        exact List.rel_append f1 f2

theorem MaxScanTokenSize_eq : MaxScanTokenSize = 65536 := by decide

theorem dropCR_length (data : GoString) : data.length ≤ (dropCR data).length + 1 := by
  unfold dropCR
  split
  · simp only [List.length_dropLast]; omega
  · omega

theorem linesLoop_first (content cur : GoString) (hcur : cur ≠ []) :
    ∃ l ∈ linesLoop content cur, cur.length ≤ l.length + 1 := by
  induction content generalizing cur with
  | nil =>
    refine ⟨dropCR cur, by simp [linesLoop, hcur], dropCR_length cur⟩
  | cons b rest ih =>
    by_cases hb : b = 0x0A
    · refine ⟨dropCR cur, by simp [linesLoop, hb], dropCR_length cur⟩
    · obtain ⟨l, hl, hlen⟩ := ih (cur ++ [b]) (by simp)
      refine ⟨l, by simpa [linesLoop, hb] using hl, ?_⟩
      simp only [List.length_append, List.length_singleton] at hlen
      omega

/-- On a content whose lines are all shorter than the buffer, the scanner delivers
the lines of the content and ends with the error of the reads, if any. -/
theorem scanLoop_eq_linesLoop (readErr : Option GoString) (content cur : GoString)
    (h : ∀ l ∈ linesLoop content cur, l.length + 1 < MaxScanTokenSize) :
    scanLoop readErr content cur = (linesLoop content cur, readErr) := by
  induction content generalizing cur with
  | nil =>
    by_cases hcur : cur = [] <;> simp [scanLoop, linesLoop, hcur]
  | cons b rest ih =>
    by_cases hb : b = 0x0A
    · have hrest : ∀ l ∈ linesLoop rest [], l.length + 1 < MaxScanTokenSize := by
        intro l hl
        exact h l (by simp [linesLoop, hb, hl])
      simp only [scanLoop, linesLoop, hb, if_true, ih [] hrest]
    · have hrest : ∀ l ∈ linesLoop rest (cur ++ [b]), l.length + 1 < MaxScanTokenSize := by
        intro l hl
        exact h l (by simpa [linesLoop, hb] using hl)
      obtain ⟨l, hl, hlen⟩ := linesLoop_first rest (cur ++ [b]) (by simp)
      have hl2 := hrest l hl
      simp only [List.length_append, List.length_singleton] at hlen
      have hshort : ¬ MaxScanTokenSize ≤ cur.length + 1 := by omega
      simp only [scanLoop, linesLoop, hb, if_false, hshort, ih (cur ++ [b]) hrest]

theorem linesLoop_replicate (a : Byte) (ha : a ≠ 0x0A) (k : Nat) (rest cur : GoString) :
    linesLoop (List.replicate k a ++ rest) cur = linesLoop rest (cur ++ List.replicate k a) := by
  induction k generalizing cur with
  | zero => simp
  | succ k ih =>
    rw [List.replicate_succ, List.cons_append, linesLoop, if_neg ha, ih]
    simp

theorem scanLoop_replicate (readErr : Option GoString) (a : Byte) (ha : a ≠ 0x0A) (k : Nat)
    (rest cur : GoString) (hcur : cur.length < MaxScanTokenSize)
    (hk : MaxScanTokenSize ≤ cur.length + k) :
    scanLoop readErr (List.replicate k a ++ rest) cur = ([], some ErrTooLong) := by
  induction k generalizing cur with
  | zero => omega
  | succ k ih =>
    rw [List.replicate_succ, List.cons_append, scanLoop, if_neg ha]
    by_cases hfull : MaxScanTokenSize ≤ cur.length + 1
    · rw [if_pos hfull]
    · rw [if_neg hfull]
      apply ih
      · simp only [List.length_append, List.length_singleton]; omega
      · simp only [List.length_append, List.length_singleton]; omega

theorem dropCR_replicate (a : Byte) (ha : a ≠ 0x0D) (k : Nat) :
    dropCR (List.replicate k a) = List.replicate k a := by
  unfold dropCR
  rw [if_neg]
  intro h
  have hmem : (0x0D : Byte) ∈ List.replicate k a := List.mem_of_getLast?_eq_some h
  exact ha (List.eq_of_mem_replicate hmem).symm

theorem parseLine_replicate (appID : GoString) (a : Byte) (ha : a ≠ 0x3A) (k : Nat) :
    parseLine appID (List.replicate k a) = none := by
  rw [parseLine_eq_none_iff]
  left
  rintro ⟨l1, l2, h⟩
  have hmem : (0x3A : Byte) ∈ List.replicate k a := by
    rw [← h, str_colon]; simp
  exact ha (List.eq_of_mem_replicate hmem).symm

/-- C5, amended: whatever the endpoint answers, the records `processLogFile` passes to
`uploadLog` are exactly the records parsed from the lines the scanner delivers
that parse, in line order and once each, and `http.Post` is called with exactly
the JSON bodies of these records, in the same order; for a file that is read
without error and whose lines all have fewer than `MaxScanTokenSize - 1` bytes,
the lines delivered are all the lines of the file, so that the records are those
parsed from the lines of the file; a file that cannot be opened and a file
holding only the malformed line `this is not a log line` give no upload attempt. -/
theorem C5_uploads_in_line_order {σ : Type} (post : Endpoint σ)
    (filePath appID uploadURL : GoString) (net : σ) :
    (∀ lines scanErr,
      (processLogFile post filePath appID uploadURL (.opened lines scanErr) net).uploads
        = lines.filterMap (parseLine appID)) ∧
    (∀ lines scanErr,
      List.Forall₂ (fun d body => jsonMarshal d = .ok body)
        (lines.filterMap (parseLine appID))
        (processLogFile (recording post) filePath appID uploadURL
          (.opened lines scanErr) (net, [])).net.2) ∧
    (∀ content, (∀ l ∈ fileLines content, l.length + 1 < MaxScanTokenSize) →
      scanFile content none = .opened (fileLines content) none ∧
      (processLogFile post filePath appID uploadURL (scanFile content none) net).uploads
        = (fileLines content).filterMap (parseLine appID)) ∧
    (∀ err, (processLogFile post filePath appID uploadURL (.failed err) net).uploads = []) ∧
    (processLogFile post filePath appID uploadURL
      (.opened [str "this is not a log line"] none) net).uploads = [] := by
  refine ⟨fun lines scanErr => processLogFile_uploads post filePath appID uploadURL lines scanErr net,
    ?_, ?_, fun err => rfl, ?_⟩
  · intro lines scanErr
    obtain ⟨bodies, hb, hf⟩ := foldl_scanStep_recording post filePath appID uploadURL lines
      { logs := [], uploads := [], done := 0, net := (net, []) }
    have : (processLogFile (recording post) filePath appID uploadURL
        (.opened lines scanErr) (net, [])).net.2 = bodies := by
      unfold processLogFile
      cases scanErr <;> simpa using hb
    rw [this]; exact hf
  · intro content hshort
    have hscan : scanFile content none = .opened (fileLines content) none := by
      unfold scanFile
      rw [scanLoop_eq_linesLoop none content [] hshort]
      rfl
    exact ⟨hscan, by rw [hscan, processLogFile_uploads]⟩
  · rw [processLogFile_uploads]
    have : parseLine appID (str "this is not a log line") = none :=
      (parseLine_eq_none_iff _ _).2 (Or.inl (by decide))
    simp [this]

set_option maxRecDepth 1000000 in
/-- C5 on a file of three short lines, the second ended by a carriage return and a
newline, the third by the end of the file: the scanner delivers the three lines
and the two that parse are uploaded. -/
theorem C5_uploads_in_line_order_witness :
    (∀ l ∈ fileLines sampleFile, l.length + 1 < MaxScanTokenSize) ∧
    scanFile sampleFile none = .opened sampleLines none ∧
    (processLogFile failFirst (str "test/a.log") (str "seata") (str "http://localhost:8080/upload")
      (scanFile sampleFile none) 0).uploads
      = (fileLines sampleFile).filterMap (parseLine (str "seata")) :=
  ⟨by decide,
    ((C5_uploads_in_line_order failFirst (str "test/a.log") (str "seata")
      (str "http://localhost:8080/upload") 0).2.2.1 sampleFile (by decide)).1.trans
        (by decide),
    ((C5_uploads_in_line_order failFirst (str "test/a.log") (str "seata")
      (str "http://localhost:8080/upload") 0).2.2.1 sampleFile (by decide)).2⟩

/-- C5 as stated fails on a file whose first line has 65536 bytes: the lines of the
file are that line and `[t] [INFO]: m`, the second parses, but the scanner stops
at the first with `bufio.Scanner: token too long` and delivers nothing, so no
upload is attempted. -/
theorem C5_counterexample :
    fileLines longLineFile = [List.replicate 65536 0x61, str "[t] [INFO]: m"] ∧
    (fileLines longLineFile).filterMap (parseLine (str "seata"))
      = [{ ApplicationID := str "seata", LogLevel := str "INFO", Timestamp := str "t",
           LogMessage := str "m" }] ∧
    scanFile longLineFile none = .opened [] (some (str "bufio.Scanner: token too long")) ∧
    (processLogFile quietEnv.post (str "test/a.log") (str "seata")
      (str "http://localhost:8080/upload") (scanFile longLineFile none) ()).uploads = [] := by
  have hlines : fileLines longLineFile = [List.replicate 65536 0x61, str "[t] [INFO]: m"] := by
    have htail : str "\n[t] [INFO]: m\n" = 0x0A :: str "[t] [INFO]: m\n" := by decide
    have hrest : linesLoop (str "[t] [INFO]: m\n") [] = [str "[t] [INFO]: m"] := by decide
    unfold fileLines longLineFile
    rw [linesLoop_replicate 0x61 (by decide), htail, linesLoop, if_pos rfl, hrest,
      List.nil_append, dropCR_replicate 0x61 (by decide)]
  have hscan : scanFile longLineFile none
      = .opened [] (some (str "bufio.Scanner: token too long")) := by
    unfold scanFile longLineFile
    rw [scanLoop_replicate none 0x61 (by decide) 65536 _ []
      (by rw [MaxScanTokenSize_eq]; simp) (by rw [MaxScanTokenSize_eq]; simp)]
    rfl
  refine ⟨hlines, ?_, hscan, ?_⟩
  · have h2 : parseLine (str "seata") (str "[t] [INFO]: m")
        = some { ApplicationID := str "seata", LogLevel := str "INFO", Timestamp := str "t",
                 LogMessage := str "m" } := by decide
    rw [hlines, List.filterMap_cons, parseLine_replicate _ 0x61 (by decide), List.filterMap_cons,
      h2, List.filterMap_nil]
  · rw [hscan, processLogFile_uploads, List.filterMap_nil]

theorem foldl_scanStep_logs_get {σ : Type} (post : Endpoint σ)
    (filePath appID uploadURL : GoString) (lines : List GoString) (r0 : Run σ)
    (hr0 : r0.logs = []) (i : Nat) (hi : i < lines.length) (msg : GoString)
    (hmsg : (scanStep post filePath appID uploadURL
      ((lines.take i).foldl (scanStep post filePath appID uploadURL) r0) lines[i]).logs
        = ((lines.take i).foldl (scanStep post filePath appID uploadURL) r0).logs ++ [msg]) :
    (lines.foldl (scanStep post filePath appID uploadURL) r0).logs[i]? = some msg := by
  have hsplit : lines = lines.take i ++ lines[i] :: lines.drop (i + 1) := by
    rw [List.getElem_cons_drop, List.take_append_drop]
  obtain ⟨L1, hL1, hlen1⟩ := foldl_scanStep_logs post filePath appID uploadURL (lines.take i) r0
  obtain ⟨L2, hL2, -⟩ := foldl_scanStep_logs post filePath appID uploadURL (lines.drop (i + 1))
    (scanStep post filePath appID uploadURL
      ((lines.take i).foldl (scanStep post filePath appID uploadURL) r0) lines[i])
  have hfold : lines.foldl (scanStep post filePath appID uploadURL) r0
      = (lines.drop (i + 1)).foldl (scanStep post filePath appID uploadURL)
          (scanStep post filePath appID uploadURL
            ((lines.take i).foldl (scanStep post filePath appID uploadURL) r0) lines[i]) := by
    conv_lhs => rw [hsplit]
    rw [List.foldl_append, List.foldl_cons]
  rw [hfold, hL2, hmsg, hL1, hr0]
  have hlen : L1.length = i := by
    rw [hlen1, List.length_take]; omega
  rw [List.nil_append, List.append_assoc, List.getElem?_append_right (by omega), hlen]
  simp

/-- C8: processing a file that opens and scans without error logs exactly one
message per line, the `i`-th message being for the `i`-th line: for a line that
fails to parse, `invalid log format in file <path>: <line>`; for a parsed line
whose `uploadLog` (called in the state the first `i` lines left the remote side
in) returns an error, `failed to upload log from file <path>: <error text>`; and
otherwise `successfully uploaded log from file <path>: <message of the record>`. -/
theorem C8_one_log_per_line {σ : Type} (post : Endpoint σ)
    (filePath appID uploadURL : GoString) (lines : List GoString) (net : σ) :
    (processLogFile post filePath appID uploadURL (.opened lines none) net).logs.length
      = lines.length ∧
    ∀ (i : Nat) (hi : i < lines.length),
      match parseLine appID lines[i] with
      | none =>
        (processLogFile post filePath appID uploadURL (.opened lines none) net).logs[i]?
          = some (str "invalid log format in file " ++ filePath ++ str ": " ++ lines[i])
      | some d =>
        match (uploadLog post
            (processLogFile post filePath appID uploadURL (.opened (lines.take i) none) net).net
            d uploadURL).1 with
        | some err =>
          (processLogFile post filePath appID uploadURL (.opened lines none) net).logs[i]?
            = some (str "failed to upload log from file " ++ filePath ++ str ": " ++ err)
        | none =>
          (processLogFile post filePath appID uploadURL (.opened lines none) net).logs[i]?
            = some (str "successfully uploaded log from file " ++ filePath ++ str ": "
                ++ d.LogMessage) := by
  constructor
  · obtain ⟨L, hL, hlen⟩ := foldl_scanStep_logs post filePath appID uploadURL lines
      { logs := [], uploads := [], done := 0, net := net }
    simp only [processLogFile, hL, List.nil_append, hlen]
  · intro i hi
    simp only [processLogFile]
    cases hp : parseLine appID lines[i] with
    | none =>
      simp only
      apply foldl_scanStep_logs_get post filePath appID uploadURL lines _ rfl i hi
      simp [scanStep, hp]
    | some d =>
      simp only
      rcases hu : uploadLog post ((lines.take i).foldl (scanStep post filePath appID uploadURL)
        { logs := [], uploads := [], done := 0, net := net }).net d uploadURL with ⟨_ | e, net1⟩
      · simp only
        apply foldl_scanStep_logs_get post filePath appID uploadURL lines _ rfl i hi
        simp [scanStep, hp, hu]
      · simp only
        apply foldl_scanStep_logs_get post filePath appID uploadURL lines _ rfl i hi
        simp [scanStep, hp, hu]

set_option maxRecDepth 100000 in
/-- C8 on a three-line file against an endpoint that fails the first request: the
second line of the file is parsed, its upload is answered 500 `internal error`,
and the second message logged carries that text. -/
theorem C8_one_log_per_line_witness :
    1 < sampleLines.length ∧
    (processLogFile failFirst (str "test/a.log") (str "seata") (str "http://localhost:8080/upload")
      (.opened sampleLines none) 0).logs[1]?
      = some (str "failed to upload log from file " ++ str "test/a.log" ++ str ": "
          ++ str "failed to upload log: internal error") :=
  ⟨by decide,
    (C8_one_log_per_line failFirst (str "test/a.log") (str "seata")
      (str "http://localhost:8080/upload") sampleLines 0).2 1 (by decide)⟩

set_option maxRecDepth 100000 in
/-- The whole log of that run: one message per line; the failed upload is not
retried and the next line is still uploaded. -/
theorem sample_run :
    (processLogFile failFirst (str "test/a.log") (str "seata") (str "http://localhost:8080/upload")
      (.opened sampleLines none) 0).logs
      = [str "invalid log format in file test/a.log: this is not a log line",
         str "failed to upload log from file test/a.log: failed to upload log: internal error",
         str "successfully uploaded log from file test/a.log: server started"] ∧
    (processLogFile failFirst (str "test/a.log") (str "seata") (str "http://localhost:8080/upload")
      (.opened sampleLines none) 0).uploads
      = [⟨str "seata", str "ERROR", str "t1", str "boom"⟩,
         ⟨str "seata", str "INFO", str "t2", str "server started"⟩] ∧
    (processLogFile failFirst (str "test/a.log") (str "seata") (str "http://localhost:8080/upload")
      (.opened sampleLines none) 0).net = 2 := by
  decide

set_option maxRecDepth 1000000 in
/-- The end-to-end example of the specification: for a file holding the line
`[2024-01-01T10:00:00Z] [INFO]: server started` and the application `seata`, the
endpoint receives one request, whose body is the JSON payload of the example. -/
theorem sample_post :
    (processLogFile (recording quietEnv.post) (str "test/a.log") (str "seata")
      (str "http://localhost:8080/upload")
      (.opened [str "[2024-01-01T10:00:00Z] [INFO]: server started"] none) ((), [])).net.2
      = [str "\x7b\"application_id\":\"seata\",\"log_level\":\"INFO\",\"timestamp\":\"2024-01-01T10:00:00Z\",\"log_message\":\"server started\"\x7d"] := by
  decide

/-! ## The directory walker -/

theorem launchPaths_append (Join : GoString → GoString → GoString) (dirPath : GoString)
    (xs ys : List FileInfo) :
    launchPaths Join dirPath (xs ++ ys) = launchPaths Join dirPath xs ++ launchPaths Join dirPath ys := by
  simp [launchPaths]

theorem uploadLogsFromDir.init_inv {σ : Type} (Join : GoString → GoString → GoString) (dirPath : GoString)
    (files : List FileInfo) (net : σ) :
    Sys.Inv Join dirPath files (uploadLogsFromDir.init dirPath (.ok files) net) := by
  refine ⟨by simp [uploadLogsFromDir.init], ⟨[], by simp [uploadLogsFromDir.init, pendingOf, launchPaths]⟩, by simp [uploadLogsFromDir.init],
    by simp [uploadLogsFromDir.init], by simp [uploadLogsFromDir.init], by simp [uploadLogsFromDir.init]⟩

theorem uploadLogsFromDir.step_inv {σ : Type} (env : Env σ) (dirPath appID uploadURL : GoString)
    (files : List FileInfo) (s s1 : Sys σ) (a : Action)
    (hinv : Sys.Inv env.Join dirPath files s)
    (hstep : uploadLogsFromDir.step env dirPath appID uploadURL s a = some s1) :
    Sys.Inv env.Join dirPath files s1 := by
  obtain ⟨hfatal, ⟨visited, hvis, hstarted⟩, hcount, hadded, hperm, hret⟩ := hinv
  cases a with
  | main =>
    simp only [uploadLogsFromDir.step] at hstep
    cases hpc : s.pc with
    | loop pending =>
      rw [hpc] at hstep hvis hcount
      cases pending with
      | nil =>
        simp only [Option.some.injEq] at hstep
        subst hstep
        refine ⟨by simp, ⟨visited, by simpa [pendingOf] using hvis, hstarted⟩, by simpa using hcount,
          by simp, hperm, by simp⟩
      | cons file rest =>
        by_cases hdir : file.IsDir = true
        · simp only [hdir, Bool.not_true, Bool.false_eq_true, if_false, Option.some.injEq] at hstep
          subst hstep
          refine ⟨by simp, ⟨visited ++ [file], by simpa [pendingOf] using hvis, ?_⟩,
            by simpa using hcount, by simp, hperm, by simp⟩
          simp only [launchPaths_append]
          simp [launchPaths, hdir, hstarted]
        · simp only [hdir, Bool.not_false, if_true, Option.some.injEq] at hstep
          subst hstep
          refine ⟨by simp, ⟨visited, by simpa [pendingOf] using hvis, hstarted⟩, ?_, ?_, hperm,
            by simp⟩
          · simp only at hcount ⊢; omega
          · intro f rest1 h
            simp only [PC.added.injEq] at h
            rw [← h.1]; simpa using hdir
    | added file rest =>
      rw [hpc] at hstep hvis hcount
      simp only [Option.some.injEq] at hstep
      subst hstep
      have hdir : file.IsDir = false := hadded file rest hpc
      refine ⟨by simp, ⟨visited ++ [file], by simpa [pendingOf] using hvis, ?_⟩, ?_, by simp, ?_,
        by simp⟩
      · simp only [launchPaths_append]
        simp [launchPaths, hdir, hstarted]
      · simp only [List.length_append, List.length_singleton, Nat.cast_add, Nat.cast_one] at hcount ⊢
        omega
      · simp only
        rw [← List.append_assoc]
        exact List.Perm.append_right _ hperm
    | waiting =>
      rw [hpc] at hstep hcount
      by_cases hc : s.counter = 0
      · simp only [hc, if_true, Option.some.injEq] at hstep
        subst hstep
        refine ⟨by simp, ⟨visited, by simpa [hpc, pendingOf] using hvis, hstarted⟩,
          by simp only at hcount ⊢; omega, by simp, hperm, ?_⟩
        intro _
        simp only at hcount
        have : s.running.length = 0 := by omega
        exact List.eq_nil_of_length_eq_zero this
      · simp [hc] at hstep
    | returned => rw [hpc] at hstep; simp at hstep
    | fatal => exact absurd hpc hfatal
  | finish i =>
    simp only [uploadLogsFromDir.step] at hstep
    cases hget : s.running[i]? with
    | none =>
      rw [hget] at hstep
      cases hpc : s.pc <;> simp [hpc] at hstep
    | some filePath =>
      rw [hget] at hstep
      have hs1 : s1 = { s with
          counter := s.counter
            - (processLogFile env.post filePath appID uploadURL (env.openFile filePath) s.net).done,
          running := s.running.eraseIdx i,
          finished := s.finished ++ [filePath],
          logs := s.logs
            ++ (processLogFile env.post filePath appID uploadURL (env.openFile filePath) s.net).logs,
          net := (processLogFile env.post filePath appID uploadURL (env.openFile filePath) s.net).net } := by
        cases hpc : s.pc <;> simp [hpc] at hstep <;> exact hstep.symm
      subst hs1
      obtain ⟨hi, hgi⟩ := List.getElem?_eq_some.1 hget
      have hlen : (s.running.eraseIdx i).length = s.running.length - 1 :=
        List.length_eraseIdx_of_lt hi
      have hrun : s.running.Perm (filePath :: s.running.eraseIdx i) := by
        rw [List.eraseIdx_eq_take_drop_succ]
        have : s.running = s.running.take i ++ filePath :: s.running.drop (i + 1) := by
          rw [← hgi, List.getElem_cons_drop, List.take_append_drop]
        conv_lhs => rw [this]
        exact List.perm_middle
      refine ⟨hfatal, ⟨visited, hvis, hstarted⟩, ?_, hadded, ?_, ?_⟩
      · simp only [processLogFile_done, hlen]
        rw [hcount]
        have h1 : ((s.running.length - 1 : Nat) : Int) = (s.running.length : Int) - 1 := by
          omega
        rw [h1]
        push_cast
        omega
      · simp only
        refine hperm.trans ?_
        rw [List.append_assoc]
        exact List.Perm.append_left _ (by simpa using hrun)
      · intro h
        simp only at h
        rw [hret h] at hi
        simp at hi

theorem uploadLogsFromDir.run_inv {σ : Type} (env : Env σ) (dirPath appID uploadURL : GoString)
    (files : List FileInfo) (schedule : List Action) (s s1 : Sys σ)
    (hinv : Sys.Inv env.Join dirPath files s)
    (hrun : uploadLogsFromDir.run env dirPath appID uploadURL s schedule = some s1) :
    Sys.Inv env.Join dirPath files s1 := by
  induction schedule generalizing s with
  | nil =>
    simp only [uploadLogsFromDir.run, Option.some.injEq] at hrun
    exact hrun ▸ hinv
  | cons a rest ih =>
    simp only [uploadLogsFromDir.run] at hrun
    cases hstep : uploadLogsFromDir.step env dirPath appID uploadURL s a with
    | none => simp [hstep] at hrun
    | some s2 =>
      rw [hstep] at hrun
      exact ih s2 (uploadLogsFromDir.step_inv env dirPath appID uploadURL files s s2 a hinv hstep) hrun

theorem uploadLogsFromDir.run_append {σ : Type} (env : Env σ)
    (dirPath appID uploadURL : GoString) (xs ys : List Action) (s : Sys σ) :
    uploadLogsFromDir.run env dirPath appID uploadURL s (xs ++ ys)
      = (uploadLogsFromDir.run env dirPath appID uploadURL s xs).bind
          fun s1 => uploadLogsFromDir.run env dirPath appID uploadURL s1 ys := by
  induction xs generalizing s with
  | nil => rfl
  | cons a xs ih =>
    simp only [List.cons_append, uploadLogsFromDir.run]
    cases uploadLogsFromDir.step env dirPath appID uploadURL s a with
    | none => rfl
    | some s1 => exact ih s1

/-- The main goroutine alone gets through its loop: from the loop it reaches
`wg.Wait()`, whatever the entries still to visit. -/
theorem uploadLogsFromDir.reach_waiting {σ : Type} (env : Env σ)
    (dirPath appID uploadURL : GoString) (pending : List FileInfo) :
    ∀ s : Sys σ, s.pc = .loop pending →
      ∃ schedule s1, uploadLogsFromDir.run env dirPath appID uploadURL s schedule = some s1 ∧
        s1.pc = .waiting := by
  induction pending with
  | nil =>
    intro s hpc
    exact ⟨[.main], { s with pc := .waiting },
      by simp [uploadLogsFromDir.run, uploadLogsFromDir.step, hpc], rfl⟩
  | cons file rest ih =>
    intro s hpc
    by_cases hdir : file.IsDir = true
    · obtain ⟨schedule, s1, hrun, hw⟩ := ih { s with pc := .loop rest } rfl
      exact ⟨.main :: schedule, s1,
        by simp [uploadLogsFromDir.run, uploadLogsFromDir.step, hpc, hdir, hrun], hw⟩
    · obtain ⟨schedule, s1, hrun, hw⟩ := ih
        { s with pc := .loop rest, counter := s.counter + 1,
                 started := s.started ++ [env.Join dirPath file.Name],
                 running := s.running ++ [env.Join dirPath file.Name] } rfl
      exact ⟨.main :: .main :: schedule, s1,
        by simp [uploadLogsFromDir.run, uploadLogsFromDir.step, hpc, hdir, hrun], hw⟩

/-- While the main goroutine waits, the goroutines still running can all finish, one
after the other, each taking one from the counter. -/
theorem uploadLogsFromDir.drain {σ : Type} (env : Env σ)
    (dirPath appID uploadURL : GoString) (n : Nat) :
    ∀ s : Sys σ, s.pc = .waiting → s.running.length = n →
      ∃ schedule s1, uploadLogsFromDir.run env dirPath appID uploadURL s schedule = some s1 ∧
        s1.pc = .waiting ∧ s1.running = [] ∧ s1.counter = s.counter - n := by
  induction n with
  | zero =>
    intro s hpc hlen
    exact ⟨[], s, rfl, hpc, List.eq_nil_of_length_eq_zero hlen, by simp⟩
  | succ n ih =>
    intro s hpc hlen
    rcases hrun : s.running with _ | ⟨filePath, rest⟩
    · rw [hrun] at hlen; simp at hlen
    rw [hrun] at hlen
    simp only [List.length_cons, Nat.add_right_cancel_iff] at hlen
    obtain ⟨schedule, s1, hrun1, hw, hnil, hcount⟩ := ih
      { s with
        counter := s.counter
          - (processLogFile env.post filePath appID uploadURL (env.openFile filePath) s.net).done,
        running := rest,
        finished := s.finished ++ [filePath],
        logs := s.logs
          ++ (processLogFile env.post filePath appID uploadURL (env.openFile filePath) s.net).logs,
        net := (processLogFile env.post filePath appID uploadURL (env.openFile filePath) s.net).net }
      hpc hlen
    refine ⟨.finish 0 :: schedule, s1, ?_, hw, hnil, ?_⟩
    · simp only [uploadLogsFromDir.run, uploadLogsFromDir.step, hpc, hrun,
        List.getElem?_cons_zero, List.eraseIdx_cons_zero]
      rw [hpc] at hrun1
      exact hrun1
    · rw [hcount]
      simp only [processLogFile_done]
      push_cast
      omega

/-- No deadlock: from every state that satisfies the invariant there is a schedule
under which `wg.Wait()` returns. -/
theorem uploadLogsFromDir.reach_returned {σ : Type} (env : Env σ)
    (dirPath appID uploadURL : GoString) (files : List FileInfo) (s : Sys σ)
    (hinv : Sys.Inv env.Join dirPath files s) :
    ∃ schedule s1, uploadLogsFromDir.run env dirPath appID uploadURL s schedule = some s1 ∧
      s1.pc = .returned := by
  -- from `wg.Wait()`
  have hwait : ∀ s0 : Sys σ, Sys.Inv env.Join dirPath files s0 → s0.pc = .waiting →
      ∃ schedule s1, uploadLogsFromDir.run env dirPath appID uploadURL s0 schedule = some s1 ∧
        s1.pc = .returned := by
    intro s0 hinv0 hpc0
    obtain ⟨schedule, s1, hrun, hw, hnil, hcount⟩ :=
      uploadLogsFromDir.drain env dirPath appID uploadURL s0.running.length s0 hpc0 rfl
    have hc0 := hinv0.2.2.1
    rw [hpc0] at hc0
    simp only [add_zero] at hc0
    have hzero : s1.counter = 0 := by rw [hcount, hc0]; omega
    refine ⟨schedule ++ [.main], { s1 with pc := .returned }, ?_, rfl⟩
    rw [uploadLogsFromDir.run_append, hrun]
    simp [uploadLogsFromDir.run, uploadLogsFromDir.step, hw, hzero]
  -- from the loop
  have hloop : ∀ s0 : Sys σ, Sys.Inv env.Join dirPath files s0 → ∀ pending, s0.pc = .loop pending →
      ∃ schedule s1, uploadLogsFromDir.run env dirPath appID uploadURL s0 schedule = some s1 ∧
        s1.pc = .returned := by
    intro s0 hinv0 pending hpc0
    obtain ⟨sched1, s1, hrun1, hw⟩ :=
      uploadLogsFromDir.reach_waiting env dirPath appID uploadURL pending s0 hpc0
    obtain ⟨sched2, s2, hrun2, hret⟩ := hwait s1
      (uploadLogsFromDir.run_inv env dirPath appID uploadURL files sched1 s0 s1 hinv0 hrun1) hw
    exact ⟨sched1 ++ sched2, s2, by rw [uploadLogsFromDir.run_append, hrun1]; exact hrun2, hret⟩
  cases hpc : s.pc with
  | loop pending => exact hloop s hinv pending hpc
  | added file rest =>
    have hstep : uploadLogsFromDir.step env dirPath appID uploadURL s .main
        = some { s with pc := .loop rest, started := s.started ++ [env.Join dirPath file.Name],
                        running := s.running ++ [env.Join dirPath file.Name] } := by
      simp [uploadLogsFromDir.step, hpc]
    obtain ⟨schedule, s1, hrun, hret⟩ := hloop _
      (uploadLogsFromDir.step_inv env dirPath appID uploadURL files s _ .main hinv hstep) rest rfl
    exact ⟨.main :: schedule, s1, by simp only [uploadLogsFromDir.run, hstep]; exact hrun, hret⟩
  | waiting => exact hwait s hinv hpc
  | returned => exact ⟨[], s, rfl, hpc⟩
  | fatal => exact absurd hpc hinv.1

/-- C6: for every listing, `uploadLogsFromDir` gets through its loop and `wg.Wait()`
(there is a schedule under which it returns), and once it has left its loop,
under every schedule, the goroutines it started are exactly one `processLogFile`
per entry of the listing that is not a directory, in listing order, each on the
directory path joined with the name of the entry; when the directory holds only
regular files and subdirectories these are its `K` regular files, and `K`
goroutines were started. -/
theorem C6_one_processor_per_file {σ : Type} (env : Env σ)
    (dirPath appID uploadURL : GoString) (files : List FileInfo) (net : σ) :
    (∃ schedule s,
      uploadLogsFromDir.run env dirPath appID uploadURL
        (uploadLogsFromDir.init dirPath (.ok files) net) schedule = some s ∧
      s.pc = .returned ∧
      s.started = (files.filter fun f => !f.IsDir).map (fun f => env.Join dirPath f.Name)) ∧
    (∀ schedule s,
      uploadLogsFromDir.run env dirPath appID uploadURL
        (uploadLogsFromDir.init dirPath (.ok files) net) schedule = some s →
      (s.pc = .waiting ∨ s.pc = .returned) →
      s.started = (files.filter fun f => !f.IsDir).map (fun f => env.Join dirPath f.Name) ∧
      ((∀ f ∈ files, f.IsRegular = true ∨ f.IsDir = true) →
        s.started = (files.filter fun f => f.IsRegular).map (fun f => env.Join dirPath f.Name) ∧
        s.started.length = files.countP fun f => f.IsRegular)) := by
  have hall : ∀ schedule s,
      uploadLogsFromDir.run env dirPath appID uploadURL
        (uploadLogsFromDir.init dirPath (.ok files) net) schedule = some s →
      (s.pc = .waiting ∨ s.pc = .returned) →
      s.started = (files.filter fun f => !f.IsDir).map (fun f => env.Join dirPath f.Name) ∧
      ((∀ f ∈ files, f.IsRegular = true ∨ f.IsDir = true) →
        s.started = (files.filter fun f => f.IsRegular).map (fun f => env.Join dirPath f.Name) ∧
        s.started.length = files.countP fun f => f.IsRegular) := by
    intro schedule s hrun hpc
    obtain ⟨-, ⟨visited, hvis, hstarted⟩, -, -, -, -⟩ :=
      uploadLogsFromDir.run_inv env dirPath appID uploadURL files schedule _ s
        (uploadLogsFromDir.init_inv env.Join dirPath files net) hrun
    have hv : visited = files := by
      rcases hpc with h | h <;> simp [h, pendingOf] at hvis <;> exact hvis.symm
    subst hv
    refine ⟨hstarted, ?_⟩
    intro hkinds
    have hfilter : (visited.filter fun f => !f.IsDir) = visited.filter fun f => f.IsRegular := by
      apply List.filter_congr
      intro f hf
      rcases hkinds f hf with h | h
      · have : f.IsDir = false := by
          simp only [FileInfo.IsRegular, decide_eq_true_eq] at h
          simp [FileInfo.IsDir, h]
        simp [h, this]
      · have : f.IsRegular = false := by
          simp only [FileInfo.IsDir, decide_eq_true_eq] at h
          simp [FileInfo.IsRegular, h]
        simp [h, this]
    rw [hstarted, launchPaths, hfilter]
    exact ⟨rfl, by rw [List.length_map, List.countP_eq_length_filter]⟩
  refine ⟨?_, hall⟩
  obtain ⟨schedule, s, hrun, hret⟩ := uploadLogsFromDir.reach_returned env dirPath appID uploadURL
    files _ (uploadLogsFromDir.init_inv env.Join dirPath files net)
  exact ⟨schedule, s, hrun, hret, (hall schedule s hrun (Or.inr hret)).1⟩

/-- C6 on a directory with the regular files `a.log` and `b.log` around the
subdirectory `sub`: two goroutines, on `test/a.log` and `test/b.log`. -/
theorem C6_one_processor_per_file_witness :
    uploadLogsFromDir.run quietEnv (str "test") (str "seata") (str "http://localhost:8080/upload")
        (uploadLogsFromDir.init (str "test") (.ok sampleDir) ()) sampleSchedule
      = some { pc := .returned, counter := 0,
               started := [str "test/a.log", str "test/b.log"], running := [],
               finished := [str "test/b.log", str "test/a.log"], logs := [], net := () } ∧
    (∀ f ∈ sampleDir, f.IsRegular = true ∨ f.IsDir = true) ∧
    [str "test/a.log", str "test/b.log"]
      = (sampleDir.filter fun f => f.IsRegular).map (fun f => quietEnv.Join (str "test") f.Name) ∧
    [str "test/a.log", str "test/b.log"].length = sampleDir.countP fun f => f.IsRegular :=
  ⟨by decide, by decide,
    ((C6_one_processor_per_file quietEnv (str "test") (str "seata")
      (str "http://localhost:8080/upload") sampleDir ()).2 sampleSchedule
      { pc := .returned, counter := 0,
        started := [str "test/a.log", str "test/b.log"], running := [],
        finished := [str "test/b.log", str "test/a.log"], logs := [], net := () }
      (by decide) (Or.inr rfl)).2 (by decide)⟩

/-- While a started goroutine is still running, `wg.Wait()` does not return: on the
example directory the main goroutine cannot take a seventh step before a
goroutine finishes, nor an eighth before both have. -/
theorem wait_blocks_example :
    uploadLogsFromDir.run quietEnv (str "test") (str "seata") (str "http://localhost:8080/upload")
        (uploadLogsFromDir.init (str "test") (.ok sampleDir) ())
        [.main, .main, .main, .main, .main, .main, .main] = none ∧
    uploadLogsFromDir.run quietEnv (str "test") (str "seata") (str "http://localhost:8080/upload")
        (uploadLogsFromDir.init (str "test") (.ok sampleDir) ())
        [.main, .main, .main, .main, .main, .main, .finish 0, .main] = none := by
  decide

/-- When `ioutil.ReadDir` fails, `log.Fatalf` ends the process: nothing is started
and no goroutine can move. -/
theorem fatal_no_step {σ : Type} (env : Env σ) (dirPath appID uploadURL err : GoString)
    (net : σ) (a : Action) :
    (uploadLogsFromDir.init dirPath (.error err) net).started = [] ∧
    uploadLogsFromDir.step env dirPath appID uploadURL (uploadLogsFromDir.init dirPath (.error err) net) a = none := by
  cases a <;> simp [uploadLogsFromDir.init, uploadLogsFromDir.step]

/-! ## `unicode/utf8` and `encoding/json`: lemmas -/

theorem decode_ascii (b : Byte) (t : GoString) (hb : b.val < 0x80) :
    DecodeRuneInString (b :: t) = (b.val, 1) := by
  unfold DecodeRuneInString
  simp only [first, hb, if_true]
  simp

/-- The row of `first` for a lead byte: the width, and the bounds of the second byte. -/
theorem first_lead (b : Byte) (hx : first b < 0xF0) :
    ∃ sz lo hi, first b % 8 = sz ∧ acceptRanges (first b / 16) = (lo, hi) ∧
      2 ≤ sz ∧ sz ≤ 4 ∧ 0x80 ≤ lo ∧ hi ≤ 0xBF ∧ 0x80 ≤ b.val ∧
      (sz = 2 → 0xC2 ≤ b.val ∧ b.val ≤ 0xDF) ∧
      (sz = 3 → 0xE0 ≤ b.val ∧ b.val ≤ 0xEF ∧ (b.val = 0xE2 → lo = 0x80)) ∧
      (sz = 4 → 0xF0 ≤ b.val ∧ b.val ≤ 0xF4 ∧ (b.val = 0xF0 → lo = 0x90)) := by
  generalize hf : first b = x at hx ⊢
  unfold first at hf
  have hlt := b.isLt
  generalize b.val = n at hf hlt ⊢
  repeat' split at hf
  all_goals first
    | omega
    | (subst hf; refine ⟨_, _, _, rfl, rfl, ?_⟩; omega)

theorem first_ge (b : Byte) (hx : ¬ first b < 0xF0) :
    (b.val < 0x80 ∧ first b = 0xF0) ∨ (0x80 ≤ b.val ∧ first b = 0xF1) := by
  generalize hf : first b = x at hx ⊢
  unfold first at hf
  generalize b.val = n at hf ⊢
  repeat' split at hf
  all_goals omega

theorem decode_lead (b : Byte) (t : GoString) (hb : 0x80 ≤ b.val) (c size : Nat)
    (hd : DecodeRuneInString (b :: t) = (c, size)) (hvalid : ¬ (c = RuneError ∧ size = 1)) :
    2 ≤ size ∧ size ≤ 4 ∧ size ≤ (b :: t).length ∧
      (∀ x ∈ (b :: t).take size, 0x80 ≤ x.val) ∧
      (c = 0x2028 → (b :: t).take size = [0xE2, 0x80, 0xA8]) ∧
      (c = 0x2029 → (b :: t).take size = [0xE2, 0x80, 0xA9]) := by
  unfold DecodeRuneInString at hd
  by_cases hx : first b < 0xF0
  · obtain ⟨sz, lo, hi, hsz, hacc, h2, h4, hlo, hhi, -, hw2, hw3, hw4⟩ := first_lead b hx
    simp only [ge_iff_le, Nat.not_le.2 hx, if_false, hsz, hacc] at hd
    have hbl := b.isLt
    simp only [RuneError] at hd hvalid
    rcases t with _ | ⟨s1, _ | ⟨s2, _ | ⟨s3, t3⟩⟩⟩
    · simp only [List.length_cons, List.length_nil] at hd
      rw [if_pos (by omega)] at hd
      simp only [Prod.mk.injEq] at hd
      exact absurd ⟨hd.1.symm, hd.2.symm⟩ hvalid
    all_goals
      simp only [List.length_cons, List.length_nil, List.getD_cons_zero, List.getD_cons_succ,
        List.getD_nil] at hd
      have hl1 := s1.isLt
      repeat' split at hd
      all_goals
        simp only [Prod.mk.injEq] at hd
        obtain ⟨hc, hs⟩ := hd
        subst hs
        try omega
    all_goals
      refine ⟨by omega, by omega, by simp only [List.length_cons, List.length_nil]; omega,
        ?_, ?_, ?_⟩
    all_goals try
      (intro x hxm
       simp only [List.take_succ_cons, List.take_zero, List.take_nil, List.mem_cons,
         List.not_mem_nil, or_false] at hxm
       have hxl := x.isLt
       rcases hxm with rfl | rfl | rfl | rfl
       all_goals omega)
    all_goals
      intro h8
      try omega
    all_goals
      have e1 : b = 0xE2 := Fin.ext (show b.val = 0xE2 by omega)
      have e2 : s1 = 0x80 := Fin.ext (show s1.val = 0x80 by omega)
      have hl2 := s2.isLt
      first
        | (have e3 : s2 = 0xA8 := Fin.ext (show s2.val = 0xA8 by omega)
           rw [e1, e2, e3]; rfl)
        | (have e3 : s2 = 0xA9 := Fin.ext (show s2.val = 0xA9 by omega)
           rw [e1, e2, e3]; rfl)
  · rcases first_ge b hx with ⟨h, -⟩ | ⟨-, h⟩
    · omega
    · simp only [h] at hd
      simp at hd
      exact absurd ⟨hd.1.symm, hd.2.symm⟩ hvalid

theorem decode_take4 (s : GoString) : DecodeRuneInString (s.take 4) = DecodeRuneInString s := by
  rcases s with _ | ⟨s0, _ | ⟨s1, _ | ⟨s2, _ | ⟨s3, _ | ⟨s4, t⟩⟩⟩⟩⟩
  · rfl
  · rfl
  · rfl
  · rfl
  · rfl
  · simp only [List.take_succ_cons, List.take_zero]
    unfold DecodeRuneInString
    by_cases hx : first s0 < 0xF0
    · obtain ⟨sz, lo, hi, hsz, hacc, h2, h4, -⟩ := first_lead s0 hx
      have hl1 : ¬ (t.length + 1 + 1 + 1 + 1 + 1 < sz) := by omega
      have hl2 : ¬ (0 + 1 + 1 + 1 + 1 < sz) := by omega
      simp only [ge_iff_le, Nat.not_le.2 hx, if_false, hsz, List.length_cons, List.length_nil,
        List.getD_cons_zero, List.getD_cons_succ, hl1, hl2]
    · simp only [ge_iff_le, Nat.not_lt.1 hx, if_true]

theorem hex_eq : hex = [48, 49, 50, 51, 52, 53, 54, 55, 56, 57, 97, 98, 99, 100, 101, 102] := by
  decide

theorem hexVal_hex (n : Nat) (hn : n < 16) : hexVal (hex.getD n 0) = some n := by
  rw [hex_eq]
  interval_cases n <;> rfl

theorem getu4_hex (x y z w : Nat) (hx : x < 16) (hy : y < 16) (hz : z < 16) (hw : w < 16) :
    getu4 (hex.getD x 0) (hex.getD y 0) (hex.getD z 0) (hex.getD w 0)
      = some (x * 4096 + y * 256 + z * 16 + w) := by
  simp only [getu4, hexVal_hex, hx, hy, hz, hw]

theorem unquoteLoop_quote (tail : GoString) :
    unquoteLoop none (0x22 :: tail) = some ([], tail) := by
  rw [unquoteLoop.eq_def]; rfl

theorem unquoteLoop_plain (b : Byte) (tail : GoString) (hq : b ≠ 0x22) (hs : b ≠ 0x5C)
    (hc : ¬ b.val < 0x20) :
    unquoteLoop none (b :: tail) = (unquoteLoop none tail).map fun p => (b :: p.1, p.2) := by
  rw [unquoteLoop.eq_def]
  simp only [if_neg hq, if_neg hs, if_neg hc]
  rfl

theorem unquoteLoop_escape (e c : Byte) (tail : GoString) (he : e ≠ 0x75)
    (hu : unescape e = some c) :
    unquoteLoop none (0x5C :: e :: tail)
      = (unquoteLoop none tail).map fun p => (c :: p.1, p.2) := by
  rw [unquoteLoop.eq_def]
  have h1 : (0x5C : Byte) ≠ 0x22 := by decide
  simp only [if_neg h1, if_true, if_neg he, hu]
  rfl

theorem unquoteLoop_u (h1 h2 h3 h4 : Byte) (rr : Nat) (tail : GoString)
    (hg : getu4 h1 h2 h3 h4 = some rr) (hr : ¬ (0xD800 ≤ rr ∧ rr < 0xDC00)) :
    unquoteLoop none (0x5C :: 0x75 :: h1 :: h2 :: h3 :: h4 :: tail)
      = (unquoteLoop none tail).map fun p => (AppendRune rr ++ p.1, p.2) := by
  rw [unquoteLoop.eq_def]
  have h1 : (0x5C : Byte) ≠ 0x22 := by decide
  simp only [if_neg h1, if_true, hg, if_neg hr]

theorem Fin_ofNat_val (b : Byte) : (Fin.ofNat b.val : Byte) = b := by
  apply Fin.ext
  simp only [Fin.ofNat, Nat.reduceAdd]
  exact Nat.mod_eq_of_lt b.isLt

theorem AppendRune_ascii (b : Byte) (hb : b.val < 0x80) : AppendRune b.val = [b] := by
  unfold AppendRune
  rw [if_pos (by omega), Fin_ofNat_val]

theorem unquoteLoop_escapeByte (b : Byte) (hb : b.val < 0x80) (tail : GoString) :
    unquoteLoop none (escapeByte b ++ tail)
      = (unquoteLoop none tail).map fun p => (b :: p.1, p.2) := by
  unfold escapeByte
  by_cases h1 : b = 0x5C ∨ b = 0x22
  · rw [if_pos h1]
    rcases h1 with rfl | rfl
    · exact unquoteLoop_escape _ _ _ (by decide) (by decide)
    · exact unquoteLoop_escape _ _ _ (by decide) (by decide)
  rw [if_neg h1]
  by_cases h2 : b = 0x08
  · rw [if_pos h2, h2]
    exact unquoteLoop_escape 0x62 _ _ (by decide) (by decide)
  rw [if_neg h2]
  by_cases h3 : b = 0x0C
  · rw [if_pos h3, h3]
    exact unquoteLoop_escape 0x66 _ _ (by decide) (by decide)
  rw [if_neg h3]
  by_cases h4 : b = 0x0A
  · rw [if_pos h4, h4]
    exact unquoteLoop_escape 0x6E _ _ (by decide) (by decide)
  rw [if_neg h4]
  by_cases h5 : b = 0x0D
  · rw [if_pos h5, h5]
    exact unquoteLoop_escape 0x72 _ _ (by decide) (by decide)
  rw [if_neg h5]
  by_cases h6 : b = 0x09
  · rw [if_pos h6, h6]
    exact unquoteLoop_escape 0x74 _ _ (by decide) (by decide)
  rw [if_neg h6]
  have hlit : str "\\u00" = [0x5C, 0x75, hex.getD 0 0, hex.getD 0 0] := by decide
  rw [hlit]
  have hg := getu4_hex 0 0 (b.val / 16) (b.val % 16) (by omega) (by omega) (by omega) (by omega)
  have hval : 0 * 4096 + 0 * 256 + b.val / 16 * 16 + b.val % 16 = b.val := by omega
  rw [hval] at hg
  have := unquoteLoop_u _ _ _ _ b.val tail hg (by omega)
  rw [AppendRune_ascii b hb] at this
  exact this

theorem unquoteLoop_raw (bs tail : GoString) (h : ∀ x ∈ bs, 0x80 ≤ x.val) :
    unquoteLoop none (bs ++ tail) = (unquoteLoop none tail).map fun p => (bs ++ p.1, p.2) := by
  induction bs with
  | nil =>
    simp only [List.nil_append]
    cases unquoteLoop none tail <;> rfl
  | cons b bs ih =>
    have hb : 0x80 ≤ b.val := h b (by simp)
    rw [List.cons_append, unquoteLoop_plain b _ (fun e => by rw [e] at hb; revert hb; decide)
      (fun e => by rw [e] at hb; revert hb; decide) (by omega),
      ih (fun x hx => h x (by simp [hx]))]
    cases unquoteLoop none tail <;> rfl

theorem str_html : str "\"&<>\\" = [0x22, 0x26, 0x3C, 0x3E, 0x5C] := by decide

theorem validLoop_nil (f : Nat) : validLoop f [] = true := by
  cases f <;> rfl

theorem appendStringLoop_nil (f : Nat) : appendStringLoop f [] = [] := by
  cases f <;> rfl

theorem coerceLoop_nil (f : Nat) : coerceLoop f [] = [] := by
  cases f <;> rfl

/-- Reading back what `appendString` wrote gives the string coerced to valid UTF-8. -/
theorem unquoteLoop_appendStringLoop (n : Nat) :
    ∀ (s : GoString) (f : Nat), s.length ≤ n → s.length ≤ f →
      ∀ tail, unquoteLoop none (appendStringLoop f s ++ 0x22 :: tail)
        = some (coerceLoop f s, tail) := by
  induction n with
  | zero =>
    intro s f hn _ tail
    have : s = [] := List.eq_nil_of_length_eq_zero (by omega)
    subst this
    rw [appendStringLoop_nil, coerceLoop_nil]
    exact unquoteLoop_quote tail
  | succ n ih =>
    intro s f hn hf tail
    rcases s with _ | ⟨b, t⟩
    · rw [appendStringLoop_nil, coerceLoop_nil]
      exact unquoteLoop_quote tail
    obtain ⟨g, rfl⟩ : ∃ g, f = g + 1 := ⟨f - 1, by simp at hf; omega⟩
    simp only [List.length_cons] at hn hf
    simp only [appendStringLoop, coerceLoop]
    by_cases hb : b.val < 0x80
    · rw [decode_ascii b t hb]
      have hne : ¬ (b.val = RuneError) := by
        simp only [RuneError]; omega
      simp only [hne, false_and, if_false, List.drop_succ_cons, List.drop_zero,
        List.take_succ_cons, List.take_zero, List.singleton_append]
      have hrec := ih t g (by omega) (by omega) tail
      rw [if_pos hb]
      by_cases hs : htmlSafeSet b = true
      · rw [if_pos hs]
        simp only [htmlSafeSet, str_html, Bool.and_eq_true, decide_eq_true_eq, List.mem_cons,
          List.mem_singleton, List.not_mem_nil, or_false, not_or] at hs
        rw [List.cons_append, unquoteLoop_plain b _ hs.2.1 hs.2.2.2.2.2 (by omega), hrec]
        rfl
      · rw [if_neg hs, List.append_assoc, unquoteLoop_escapeByte b hb, hrec]
        rfl
    · rw [if_neg hb, decode_take4]
      rcases hd : DecodeRuneInString (b :: t) with ⟨c, size⟩
      simp only
      by_cases hbad : c = RuneError ∧ size = 1
      · rw [if_pos hbad, if_pos hbad]
        have hlit : str "\\ufffd" = [0x5C, 0x75, 0x66, 0x66, 0x66, 0x64] := by decide
        rw [hlit]
        simp only [List.cons_append, List.nil_append]
        rw [unquoteLoop_u 0x66 0x66 0x66 0x64 RuneError _ (by decide) (by decide),
          ih t g (by omega) (by omega) tail]
        rfl
      rw [if_neg hbad, if_neg hbad]
      obtain ⟨hs2, hs4, hsl, hmem, h28, h29⟩ := decode_lead b t (by omega) c size hd hbad
      have hrec := ih ((b :: t).drop size) g
        (by simp only [List.length_drop, List.length_cons]; omega)
        (by simp only [List.length_drop, List.length_cons]; omega) tail
      by_cases hsep : c = 0x2028 ∨ c = 0x2029
      · rw [if_pos hsep]
        rcases hsep with rfl | rfl
        · have hlit : str "\\u202" ++ [hex.getD (0x2028 % 16) 0]
              = [0x5C, 0x75, 0x32, 0x30, 0x32, 0x38] := by decide
          rw [hlit]
          simp only [List.cons_append, List.nil_append]
          rw [unquoteLoop_u 0x32 0x30 0x32 0x38 0x2028 _ (by decide) (by decide), hrec]
          have : AppendRune 0x2028 = List.take size (b :: t) := by rw [h28 rfl]; decide
          simp only [Option.map_some', this]
        · have hlit : str "\\u202" ++ [hex.getD (0x2029 % 16) 0]
              = [0x5C, 0x75, 0x32, 0x30, 0x32, 0x39] := by decide
          rw [hlit]
          simp only [List.cons_append, List.nil_append]
          rw [unquoteLoop_u 0x32 0x30 0x32 0x39 0x2029 _ (by decide) (by decide), hrec]
          have : AppendRune 0x2029 = List.take size (b :: t) := by rw [h29 rfl]; decide
          simp only [Option.map_some', this]
      · rw [if_neg hsep, List.append_assoc, unquoteLoop_raw _ _ hmem, hrec]
        simp only [Option.map_some']

/-- Coercion leaves a valid UTF-8 string unchanged. -/
theorem coerceLoop_valid (n : Nat) :
    ∀ (s : GoString) (f1 f2 : Nat), s.length ≤ n → s.length ≤ f1 → s.length ≤ f2 →
      validLoop f1 s = true → coerceLoop f2 s = s := by
  induction n with
  | zero =>
    intro s f1 f2 hn _ _ _
    have : s = [] := List.eq_nil_of_length_eq_zero (by omega)
    subst this
    exact coerceLoop_nil f2
  | succ n ih =>
    intro s f1 f2 hn hf1 hf2 hv
    rcases s with _ | ⟨b, t⟩
    · exact coerceLoop_nil f2
    obtain ⟨g1, rfl⟩ : ∃ g, f1 = g + 1 := ⟨f1 - 1, by simp at hf1; omega⟩
    obtain ⟨g2, rfl⟩ : ∃ g, f2 = g + 1 := ⟨f2 - 1, by simp at hf2; omega⟩
    simp only [List.length_cons] at hn hf1 hf2
    simp only [validLoop] at hv
    simp only [coerceLoop]
    rcases hd : DecodeRuneInString (b :: t) with ⟨c, size⟩
    rw [hd] at hv
    simp only at hv ⊢
    by_cases hbad : c = RuneError ∧ size = 1
    · simp [hbad] at hv
    simp only [hbad, if_false] at hv
    rw [if_neg hbad]
    have hsize : 1 ≤ size := by
      by_cases hb : b.val < 0x80
      · rw [decode_ascii b t hb] at hd
        simp only [Prod.mk.injEq] at hd
        omega
      · exact Nat.le_trans (by omega) (decode_lead b t (by omega) c size hd hbad).1
    rw [ih ((b :: t).drop size) g1 g2
      (by simp only [List.length_drop, List.length_cons]; omega)
      (by simp only [List.length_drop, List.length_cons]; omega)
      (by simp only [List.length_drop, List.length_cons]; omega) hv]
    exact List.take_append_drop _ _

theorem coerceToValidUTF8_valid (s : GoString) (hv : ValidString s = true) :
    coerceToValidUTF8 s = s :=
  coerceLoop_valid s.length s s.length s.length (Nat.le_refl _) (Nat.le_refl _) (Nat.le_refl _) hv

theorem unquote_appendString (s tail : GoString) :
    unquote (appendString s ++ tail) = some (coerceToValidUTF8 s, tail) := by
  have hq : str "\"" = [0x22] := by decide
  unfold appendString
  rw [hq]
  simp only [List.singleton_append, List.cons_append, List.append_assoc, List.nil_append, unquote,
    if_true]
  exact unquoteLoop_appendStringLoop s.length s s.length (Nat.le_refl _) (Nat.le_refl _) tail

theorem expect_append (lit s : GoString) : expect lit (lit ++ s) = some s := by
  unfold expect
  rw [if_pos ((HasPrefix_iff _ _).2 (List.prefix_append _ _)), List.drop_left]

theorem decodeMember_append (key v tail : GoString) (hk : ValidString key = true) :
    decodeMember key (appendString key ++ (str ":" ++ (appendString v ++ tail)))
      = some (coerceToValidUTF8 v, tail) := by
  unfold decodeMember
  simp only [unquote_appendString, coerceToValidUTF8_valid key hk, expect_append,
    Option.bind_eq_bind, Option.some_bind, ne_eq, not_true_eq_false, if_false, Option.pure_def]

theorem jsonMarshal_eq (d : LogData) :
    jsonMarshal d = .ok (str "\x7b" ++ (appendString (str "application_id") ++ (str ":" ++
      (appendString d.ApplicationID ++ (str "," ++ (appendString (str "log_level") ++ (str ":" ++
      (appendString d.LogLevel ++ (str "," ++ (appendString (str "timestamp") ++ (str ":" ++
      (appendString d.Timestamp ++ (str "," ++ (appendString (str "log_message") ++ (str ":" ++
      (appendString d.LogMessage ++ (str "\x7d" ++ [] ))))))))))))))))) := by
  have h1 : str "\x7b\"application_id\":"
      = str "\x7b" ++ (appendString (str "application_id") ++ str ":") := by decide
  have h2 : str ",\"log_level\":" = str "," ++ (appendString (str "log_level") ++ str ":") := by
    decide
  have h3 : str ",\"timestamp\":" = str "," ++ (appendString (str "timestamp") ++ str ":") := by
    decide
  have h4 : str ",\"log_message\":" = str "," ++ (appendString (str "log_message") ++ str ":") := by
    decide
  unfold jsonMarshal
  rw [h1, h2, h3, h4]
  simp only [List.append_assoc, List.append_nil]

/-- Reading back the body written for a record gives the record with its fields
coerced to valid UTF-8. -/
theorem decodeBody_jsonMarshal (d : LogData) (body : GoString) (hb : jsonMarshal d = .ok body) :
    decodeBody body = some
      { ApplicationID := coerceToValidUTF8 d.ApplicationID,
        LogLevel := coerceToValidUTF8 d.LogLevel,
        Timestamp := coerceToValidUTF8 d.Timestamp,
        LogMessage := coerceToValidUTF8 d.LogMessage } := by
  rw [jsonMarshal_eq] at hb
  injection hb with hb
  subst hb
  unfold decodeBody
  simp only [expect_append, decodeMember_append (str "application_id") _ _ (by decide),
    decodeMember_append (str "log_level") _ _ (by decide),
    decodeMember_append (str "timestamp") _ _ (by decide),
    decodeMember_append (str "log_message") _ _ (by decide),
    Option.bind_eq_bind, Option.some_bind, ne_eq, not_true_eq_false, if_false, Option.pure_def]

/-- C4, amended: for every record, the body `uploadLog` serialises is the object with
the four keys `application_id`, `log_level`, `timestamp`, `log_message`, in that
order, each followed by the JSON string `appendString` writes for the
corresponding field; reading the body back gives the four field values coerced
to valid UTF-8 (each byte that does not start a valid encoding replaced by
U+FFFD), hence the same four field values for every record whose fields are valid
UTF-8; and the record parsed from the line
`[2024-01-01T10:00:00Z] [INFO]: server started` for the application `seata` is
serialised to exactly the body of the specification. -/
theorem C4_json_body (d : LogData) :
    jsonMarshal d = .ok (str "\x7b\"application_id\":" ++ appendString d.ApplicationID
      ++ str ",\"log_level\":" ++ appendString d.LogLevel
      ++ str ",\"timestamp\":" ++ appendString d.Timestamp
      ++ str ",\"log_message\":" ++ appendString d.LogMessage ++ str "\x7d") ∧
    (∀ body, jsonMarshal d = .ok body →
      decodeBody body = some
        { ApplicationID := coerceToValidUTF8 d.ApplicationID,
          LogLevel := coerceToValidUTF8 d.LogLevel,
          Timestamp := coerceToValidUTF8 d.Timestamp,
          LogMessage := coerceToValidUTF8 d.LogMessage }) ∧
    (ValidString d.ApplicationID = true → ValidString d.LogLevel = true →
      ValidString d.Timestamp = true → ValidString d.LogMessage = true →
      ∀ body, jsonMarshal d = .ok body → decodeBody body = some d) ∧
    (parseLine (str "seata") (str "[2024-01-01T10:00:00Z] [INFO]: server started")).map jsonMarshal
      = some (.ok (str "\x7b\"application_id\":\"seata\",\"log_level\":\"INFO\",\"timestamp\":\"2024-01-01T10:00:00Z\",\"log_message\":\"server started\"\x7d")) := by
  refine ⟨rfl, fun body hb => decodeBody_jsonMarshal d body hb, ?_, ?_⟩
  · intro h1 h2 h3 h4 body hb
    rw [decodeBody_jsonMarshal d body hb, coerceToValidUTF8_valid _ h1,
      coerceToValidUTF8_valid _ h2, coerceToValidUTF8_valid _ h3, coerceToValidUTF8_valid _ h4]
  · set_option maxRecDepth 1000000 in decide

set_option maxRecDepth 1000000 in
/-- C4 on a record with escapes of every kind in its message: a quote, a
backslash, a tab, a control byte, `<`, a two-byte and a four-byte character and
the line separator U+2028. -/
theorem C4_json_body_witness :
    decodeBody (str "\x7b\"application_id\":\"seata\",\"log_level\":\"INFO\",\"timestamp\":\"2024-01-01T10:00:00Z\",\"log_message\":\"a\\\"b\\\\c\\td\\u0001e\\u003cfé😀\\u2028g\"\x7d")
      = some { ApplicationID := str "seata", LogLevel := str "INFO",
               Timestamp := str "2024-01-01T10:00:00Z",
               LogMessage := str "a\"b\\c\td\x01e<fé😀\u2028g" } :=
  (C4_json_body { ApplicationID := str "seata", LogLevel := str "INFO",
                  Timestamp := str "2024-01-01T10:00:00Z",
                  LogMessage := str "a\"b\\c\td\x01e<fé😀\u2028g" }).2.2.1
    (by decide) (by decide) (by decide) (by decide) _ (by decide)

set_option maxRecDepth 1000000 in
/-- C4 as stated fails on a record with a byte that is not valid UTF-8: the line
`[t] [INFO]: caf` followed by the Latin-1 byte `E9` parses to a record whose
message ends with that byte; `json.Marshal` writes `\ufffd` for it, and reading the
body back gives a message that ends with the three bytes of U+FFFD instead. -/
theorem C4_counterexample :
    parseLine (str "seata") (str "[t] [INFO]: caf" ++ [0xE9])
      = some { ApplicationID := str "seata", LogLevel := str "INFO", Timestamp := str "t",
               LogMessage := str "caf" ++ [0xE9] } ∧
    jsonMarshal { ApplicationID := str "seata", LogLevel := str "INFO", Timestamp := str "t",
                  LogMessage := str "caf" ++ [0xE9] }
      = .ok (str "\x7b\"application_id\":\"seata\",\"log_level\":\"INFO\",\"timestamp\":\"t\",\"log_message\":\"caf\\ufffd\"\x7d") ∧
    decodeBody (str "\x7b\"application_id\":\"seata\",\"log_level\":\"INFO\",\"timestamp\":\"t\",\"log_message\":\"caf\\ufffd\"\x7d")
      = some { ApplicationID := str "seata", LogLevel := str "INFO", Timestamp := str "t",
               LogMessage := str "caf" ++ [0xEF, 0xBF, 0xBD] } ∧
    str "caf" ++ [0xEF, 0xBF, 0xBD] ≠ str "caf" ++ [0xE9] := by
  decide

end SeataLog
